import Mathlib

/-!
# pickup_selection/pricing.go

A shallow embedding of the ride assembler (BuildRide, BuildRides), the feature
encoder (BuildPricingJSON) and the price merging loop at the end of PriceRides.

Conventions of the embedding

* A Go float64 is a value of F64: an exact rational, or one of the three
  special values +Inf, -Inf, NaN. The operations +, -, *, / of F64 are exact
  on finite values (no rounding, no overflow, no signed zero); a division by
  zero yields +Inf, -Inf or NaN as IEEE 754 prescribes.
* The rounding of binary64 (to nearest, ties to even, overflow to an
  infinity) is round64. The Savings expression and the merging loop with
  every operation rounded are savings64, PriceRides.loop64 and
  PriceRides.merge64; they are used where the range of the Savings is at
  stake.
* A Go slice is a List. An index expression out of range is a run-time
  panic, which the embedding returns as a value.
* The types Location and RouteSummary are declared outside pricing.go;
  Location is a type parameter.
-/

namespace Pricing

/-! ## float64 -/

/-- A float64 value with exact arithmetic on the finite values. -/
inductive F64 where
  | fin (q : ℚ)
  | posInf
  | negInf
  | nan
deriving DecidableEq, Repr

namespace F64

instance : OfNat F64 n := ⟨fin n⟩

instance : Inhabited F64 := ⟨fin 0⟩

/-- Negation. -/
def neg : F64 → F64
  | fin a => fin (-a)
  | posInf => negInf
  | negInf => posInf
  | nan => nan

/-- Addition: opposite infinities add up to NaN. -/
def add : F64 → F64 → F64
  | fin a, fin b => fin (a + b)
  | nan, _ => nan
  | _, nan => nan
  | posInf, negInf => nan
  | negInf, posInf => nan
  | posInf, _ => posInf
  | negInf, _ => negInf
  | fin _, posInf => posInf
  | fin _, negInf => negInf

/-- Subtraction. -/
def sub (x y : F64) : F64 := add x (neg y)

/-- The infinity with the sign of a non-zero rational, NaN at zero. -/
def infOfSign (q : ℚ) : F64 :=
  if 0 < q then posInf else if q < 0 then negInf else nan

/-- Multiplication: zero times an infinity is NaN. -/
def mul : F64 → F64 → F64
  | fin a, fin b => fin (a * b)
  | nan, _ => nan
  | _, nan => nan
  | posInf, posInf => posInf
  | posInf, negInf => negInf
  | negInf, posInf => negInf
  | negInf, negInf => posInf
  | posInf, fin b => infOfSign b
  | negInf, fin b => infOfSign (-b)
  | fin a, posInf => infOfSign a
  | fin a, negInf => infOfSign (-a)

/-- Division: a non-zero finite value over zero is an infinity, zero over
zero and an infinity over an infinity are NaN. -/
def div : F64 → F64 → F64
  | fin a, fin b => if b = 0 then infOfSign a else fin (a / b)
  | nan, _ => nan
  | _, nan => nan
  | fin _, posInf => fin 0
  | fin _, negInf => fin 0
  | posInf, fin b => if 0 ≤ b then posInf else negInf
  | negInf, fin b => if 0 ≤ b then negInf else posInf
  | posInf, posInf => nan
  | posInf, negInf => nan
  | negInf, posInf => nan
  | negInf, negInf => nan

instance : Add F64 := ⟨add⟩
instance : Sub F64 := ⟨sub⟩
instance : Mul F64 := ⟨mul⟩
instance : Div F64 := ⟨div⟩

/-- A value is defined when it is neither NaN nor an infinity. -/
def isFinite : F64 → Bool
  | fin _ => true
  | _ => false

end F64

/-! ## Data model -/

/-- Modelled from the spec: the declaration of RouteSummary is not in
pricing.go; these are the four fields BuildRide reads, two locations and two
float64 measurements. -/
structure RouteSummary (Loc : Type) where
  Source : Loc
  Destination : Loc
  Time : F64
  Distance : F64
deriving DecidableEq, Repr

/-- Stores location, walking, driving, and pricing info. -/
structure Ride (Loc : Type) where
  Source : Loc
  PickupPoint : Loc
  Destination : Loc
  WalkTime : F64
  WalkDistance : F64
  DriveTime : F64
  DriveDistance : F64
  TotalTime : F64
  TotalDistance : F64
  Price : F64
  Savings : F64
deriving DecidableEq, Repr

/-- This stores all the data needed to price a ride. -/
structure MLPricingData where
  TimeInSeconds : F64
  DistanceInMeters : F64
  TimeToHistoricRatio : F64
  TimeToNoTrafficRatio : F64
  DayOfWeekSin : F64
  DayOfWeekCos : F64
  TimeOfDaySin : F64
  TimeOfDayCos : F64
deriving DecidableEq, Repr

/-- The run-time panic of an index expression out of range. -/
structure Panic where
  index : Int
  length : Nat
deriving DecidableEq, Repr

/-! ## Ride assembler -/

variable {Loc : Type}

/-- This converts two RouteSummaries into a Ride. The composite literal names
every field but Savings, which therefore holds the zero value. -/
def BuildRide (inbound outbound : RouteSummary Loc) : Ride Loc :=
  { Source := inbound.Source
    PickupPoint := inbound.Destination
    Destination := outbound.Destination
    WalkTime := inbound.Time
    WalkDistance := inbound.Distance
    DriveTime := outbound.Time
    DriveDistance := outbound.Distance
    TotalTime := inbound.Time + outbound.Time
    TotalDistance := inbound.Distance + outbound.Distance
    Price := 0
    Savings := 0 }

/-- The loop of BuildRides over the indices of inbounds that are still to be
visited: each step reads inbounds[i] and outbounds[i] and appends the ride. -/
def BuildRides.loop (inbounds outbounds : List (RouteSummary Loc)) :
    List Nat → List (Ride Loc) → Except Panic (List (Ride Loc))
  | [], rides => .ok rides
  | i :: is, rides =>
    match inbounds[i]? with
    | none => .error ⟨i, inbounds.length⟩
    | some inb =>
      match outbounds[i]? with
      | none => .error ⟨i, outbounds.length⟩
      | some outb => BuildRides.loop inbounds outbounds is (rides ++ [BuildRide inb outb])

/-- Array/batch version of BuildRide. -/
def BuildRides (inbounds outbounds : List (RouteSummary Loc)) : Except Panic (List (Ride Loc)) :=
  BuildRides.loop inbounds outbounds (List.range inbounds.length) []

/-! ## Feature encoder -/

/-- The character of a decimal digit. -/
def digitChar (d : Nat) : Char := Char.ofNat (48 + d)

/-- Decimal digits of a natural number, most significant first, pushed in
front of acc; the first argument bounds the number of digits. -/
def natDigitsAux : Nat → Nat → List Char → List Char
  | 0, _, acc => acc
  | fuel + 1, n, acc =>
    if n < 10 then digitChar n :: acc
    else natDigitsAux fuel (n / 10) (digitChar (n % 10) :: acc)

/-- Decimal representation of a natural number, without leading zeros. -/
def natDigits (n : Nat) : List Char := natDigitsAux (n + 1) n []

/-- The six digits after the decimal point, zero padded. -/
def fracDigits6 (m : Nat) : List Char :=
  [digitChar (m / 100000 % 10), digitChar (m / 10000 % 10), digitChar (m / 1000 % 10),
   digitChar (m / 100 % 10), digitChar (m / 10 % 10), digitChar (m % 10)]

/-- The quotient n / d rounded to the nearest natural number, a tie going to
the even neighbour (the rounding of the decimal conversion of strconv). -/
def roundHalfEven (n d : Nat) : Nat :=
  let f := n / d
  let r := n % d
  if 2 * r < d then f
  else if d < 2 * r then f + 1
  else if f % 2 = 0 then f else f + 1

/-- The magnitude of a rational in millionths, rounded half to even. -/
def scaled6 (q : ℚ) : Nat := roundHalfEven (q.num.natAbs * 1000000) q.den

/-- The verb %f on a finite value: an optional minus sign, the integer part,
a point and six digits. -/
def formatFixed6 (q : ℚ) : List Char :=
  (if q < 0 then ['-'] else []) ++ natDigits (scaled6 q / 1000000) ++ ['.'] ++
    fracDigits6 (scaled6 q % 1000000)

/-- The verb %f of fmt on a float64 (default precision 6). -/
def F64.format : F64 → String
  | .fin q => String.mk (formatFixed6 q)
  | .posInf => "+Inf"
  | .negInf => "-Inf"
  | .nan => "NaN"

/-- The call fmt.Sprintf("[%f,%f,%f,%f,%f,%f,%f,%f]", ...) of BuildPricingJSON
on one tuple. -/
def BuildPricingJSON.row (data : MLPricingData) : String :=
  "[" ++ data.TimeInSeconds.format ++ "," ++ data.DistanceInMeters.format ++ "," ++
    F64.format data.TimeToHistoricRatio ++ "," ++ F64.format data.TimeToNoTrafficRatio ++ "," ++
    data.DayOfWeekSin.format ++ "," ++ data.DayOfWeekCos.format ++ "," ++
    data.TimeOfDaySin.format ++ "," ++ data.TimeOfDayCos.format ++ "]"

/-- The loop of BuildPricingJSON from index i on: len is len(pricingData),
out the text built so far. -/
def BuildPricingJSON.loop (len : Nat) : Nat → List MLPricingData → String → String
  | _, [], out => out
  | i, data :: rest, out =>
    let out1 := out ++ BuildPricingJSON.row data
    let out2 := if (i : Int) ≠ (len : Int) - 1 then out1 ++ "," else out1
    BuildPricingJSON.loop len (i + 1) rest out2

/-- Helper function to construct JSON text for use with pricing endpoint. -/
def BuildPricingJSON (pricingData : List MLPricingData) : String :=
  BuildPricingJSON.loop pricingData.length 0 pricingData "\x7b \"data\": [" ++ "]\x7d"

/-! ## Decoding the request body

The inverse direction, used to state the round trip of the encoder: a reader of
the text that BuildPricingJSON writes, which parses every number back to its
value. -/

/-- The value of a decimal digit character. -/
def digitVal (c : Char) : Option Nat :=
  if 48 ≤ c.toNat ∧ c.toNat ≤ 57 then some (c.toNat - 48) else none

/-- Reads the leading digits: the value read so far, the number of digits
read so far, and the text left. -/
def readDigits : List Char → Nat → Nat → Nat × Nat × List Char
  | [], acc, cnt => (acc, cnt, [])
  | c :: cs, acc, cnt =>
    match digitVal c with
    | some d => readDigits cs (acc * 10 + d) (cnt + 1)
    | none => (acc, cnt, c :: cs)

/-- Parses digits, optionally followed by a point and more digits. -/
def parseUnsigned (cs : List Char) : Option (ℚ × List Char) :=
  match readDigits cs 0 0 with
  | (ip, n1, cs2) =>
    if n1 = 0 then none
    else
      match cs2 with
      | c :: cs3 =>
        if c = '.' then
          match readDigits cs3 0 0 with
          | (fp, n2, cs4) => if n2 = 0 then none else some ((ip : ℚ) + (fp : ℚ) / 10 ^ n2, cs4)
        else some ((ip : ℚ), cs2)
      | [] => some ((ip : ℚ), cs2)

/-- Parses a decimal number with an optional minus sign. -/
def parseNumber : List Char → Option (ℚ × List Char)
  | [] => none
  | c :: cs =>
    if c = '-' then
      match parseUnsigned cs with
      | some (v, rest) => some (-v, rest)
      | none => none
    else parseUnsigned (c :: cs)

/-- Consumes one given character. -/
def expectChar (c : Char) : List Char → Option (List Char)
  | [] => none
  | d :: cs => if d = c then some cs else none

/-- Consumes a given text. -/
def expectText : List Char → List Char → Option (List Char)
  | [], cs => some cs
  | _ :: _, [] => none
  | p :: ps, c :: cs => if c = p then expectText ps cs else none

/-- Parses a number and the character that has to follow it. -/
def parseField (stop : Char) (cs : List Char) : Option (F64 × List Char) :=
  match parseNumber cs with
  | none => none
  | some (v, rest) =>
    match expectChar stop rest with
    | none => none
    | some rest1 => some (.fin v, rest1)

/-- Parses one bracketed array of 8 numbers into a tuple. -/
def parseRow (cs : List Char) : Option (MLPricingData × List Char) := do
  let cs0 ← expectChar '[' cs
  let (f0, cs1) ← parseField ',' cs0
  let (f1, cs2) ← parseField ',' cs1
  let (f2, cs3) ← parseField ',' cs2
  let (f3, cs4) ← parseField ',' cs3
  let (f4, cs5) ← parseField ',' cs4
  let (f5, cs6) ← parseField ',' cs5
  let (f6, cs7) ← parseField ',' cs6
  let (f7, cs8) ← parseField ']' cs7
  pure (⟨f0, f1, f2, f3, f4, f5, f6, f7⟩, cs8)

/-- Parses bracketed arrays separated by commas; the first argument bounds
their number. -/
def parseRows : Nat → List Char → Option (List MLPricingData × List Char)
  | 0, _ => none
  | fuel + 1, cs =>
    match parseRow cs with
    | none => none
    | some (d, cs1) =>
      match cs1 with
      | c :: cs2 =>
        if c = ',' then
          match parseRows fuel cs2 with
          | some (ds, rest) => some (d :: ds, rest)
          | none => none
        else some ([d], cs1)
      | [] => some ([d], cs1)

/-- Decodes the text of a request body back into the list of tuples. -/
def decodePricingJSON (s : String) : Option (List MLPricingData) :=
  match expectText "\x7b \"data\": [".data s.data with
  | none => none
  | some body =>
    if body = "]\x7d".data then some []
    else
      match parseRows body.length body with
      | some (ds, rest) => if rest = "]\x7d".data then some ds else none
      | none => none

/-- A finite value rounded to six digits after the decimal point, which is
the value that its %f text denotes. -/
def round6 (q : ℚ) : ℚ := (if q < 0 then -1 else 1) * ((scaled6 q : ℚ) / 1000000)

/-- The tuple of the values that the %f texts of a tuple denote. -/
def F64.round6 : F64 → F64
  | .fin q => .fin (Pricing.round6 q)
  | x => x

/-- The tuple with every feature rounded to six digits after the point. -/
def MLPricingData.round6 (d : MLPricingData) : MLPricingData :=
  ⟨d.TimeInSeconds.round6, d.DistanceInMeters.round6, F64.round6 d.TimeToHistoricRatio,
    F64.round6 d.TimeToNoTrafficRatio, d.DayOfWeekSin.round6, d.DayOfWeekCos.round6,
    d.TimeOfDaySin.round6, d.TimeOfDayCos.round6⟩

/-- Every feature of the tuple is a finite value. -/
def MLPricingData.allFinite (d : MLPricingData) : Prop :=
  d.TimeInSeconds.isFinite ∧ d.DistanceInMeters.isFinite ∧
    F64.isFinite d.TimeToHistoricRatio ∧ F64.isFinite d.TimeToNoTrafficRatio ∧
    d.DayOfWeekSin.isFinite ∧ d.DayOfWeekCos.isFinite ∧
    d.TimeOfDaySin.isFinite ∧ d.TimeOfDayCos.isFinite

/-- The value of a list of decimal digits, most significant first. -/
def digitsValue (ds : List Nat) : Nat := ds.foldl (fun a d => a * 10 + d) 0

/-- The text starts with no digit. -/
def NoDigitAhead (cs : List Char) : Prop := ∀ c t, cs = c :: t → digitVal c = none

/-- The text starts with no comma. -/
def NoCommaAhead (cs : List Char) : Prop := ∀ c t, cs = c :: t → c ≠ ','

/-! ## Price merger -/

/-- How the merging loop of PriceRides ends. The loop writes the slice rides
in place, so either way the outcome carries the contents of that slice. -/
inductive MergeOutcome (Loc : Type) where
  | returned (rides : List (Ride Loc))
  | panicked (p : Panic) (rides : List (Ride Loc))
deriving DecidableEq, Repr

/-- The loop "for i, price := range prices" of PriceRides from index i on. -/
def PriceRides.loop (noWalkPrice : F64) : Nat → List F64 → List (Ride Loc) → MergeOutcome Loc
  | _, [], rides => .returned rides
  | i, price :: rest, rides =>
    match rides[i]? with
    | none => .panicked ⟨i, rides.length⟩ rides
    | some r =>
      let r1 := { r with Price := price }
      let r2 := { r1 with Savings := 100 * (noWalkPrice - r1.Price) / noWalkPrice }
      PriceRides.loop noWalkPrice (i + 1) rest (rides.set i r2)

/-- The part of PriceRides after the response is parsed: prices holds the
float64 value of each element of the array "prices". -/
def PriceRides.merge (rides : List (Ride Loc)) (prices : List F64) : MergeOutcome Loc :=
  let last : Int := (prices.length : Int) - 1
  if last < 0 then .panicked ⟨last, prices.length⟩ rides
  else
    match prices[last.toNat]? with
    | none => .panicked ⟨last, prices.length⟩ rides
    | some noWalkPrice => PriceRides.loop noWalkPrice 0 prices rides

/-- The contents of the slice rides when the merging loop ends. -/
def MergeOutcome.rides : MergeOutcome Loc → List (Ride Loc)
  | .returned rides => rides
  | .panicked _ rides => rides

/-- The two assignments of one iteration of the merging loop, as one update
of the ride. -/
def reprice (noWalkPrice : F64) (r : Ride Loc) (price : F64) : Ride Loc :=
  { r with Price := price, Savings := 100 * (noWalkPrice - price) / noWalkPrice }

/-! ## float64 with rounding -/

/-- The integer nearest to a rational, a tie going to the even neighbour. -/
def roundNearestEven (x : ℚ) : ℤ :=
  if x - ⌊x⌋ < 1 / 2 then ⌊x⌋
  else if 1 / 2 < x - ⌊x⌋ then ⌊x⌋ + 1
  else if ⌊x⌋ % 2 = 0 then ⌊x⌋ else ⌊x⌋ + 1

/-- The binary exponent of the unit in the last place of binary64 at a
positive magnitude: 52 below the exponent of the leading bit, which is taken
as -1022 in the subnormal range. -/
def ulpExponent (a : ℚ) : ℤ := max (Int.log 2 a) (-1022) - 52

/-- The binary64 value nearest to a non-negative rational, as a rational
(2 ^ 1024 stands for an overflow). -/
def nearest64 (a : ℚ) : ℚ := (roundNearestEven (a / 2 ^ ulpExponent a) : ℚ) * 2 ^ ulpExponent a

/-- Rounding of an exact result to binary64: to nearest, ties to even, and to
an infinity from 2 ^ 1024 on. -/
def round64 (q : ℚ) : F64 :=
  if 0 ≤ q then (if (2 : ℚ) ^ (1024 : ℕ) ≤ nearest64 q then .posInf else .fin (nearest64 q))
  else (if (2 : ℚ) ^ (1024 : ℕ) ≤ nearest64 (-q) then .negInf else .fin (-nearest64 (-q)))

/-- The rounding step that ends every float64 operation. -/
def F64.rnd : F64 → F64
  | .fin q => round64 q
  | x => x

/-- The expression 100 * (noWalkPrice - Price) / noWalkPrice of PriceRides in
float64: a subtraction, a multiplication and a division, each one rounded. -/
def savings64 (noWalkPrice price : F64) : F64 :=
  F64.rnd (F64.rnd (100 * F64.rnd (noWalkPrice - price)) / noWalkPrice)

/-- The order of float64 values, NaN being comparable with nothing. -/
def F64.le : F64 → F64 → Prop
  | .nan, _ => False
  | _, .nan => False
  | .negInf, _ => True
  | _, .posInf => True
  | .fin a, .fin b => a ≤ b
  | .posInf, _ => False
  | .fin _, .negInf => False

/-- The value is +Inf or a finite value that is not negative. -/
def F64.nonnegOrInf : F64 → Prop
  | .fin q => 0 ≤ q
  | .posInf => True
  | _ => False

/-- The rational is a float64 value: rounding leaves it as it is. -/
def isDouble (q : ℚ) : Prop := round64 q = .fin q

/-- The two assignments of one iteration of the merging loop in float64. -/
def reprice64 (noWalkPrice : F64) (r : Ride Loc) (price : F64) : Ride Loc :=
  { r with Price := price, Savings := savings64 noWalkPrice price }

/-- The loop "for i, price := range prices" of PriceRides from index i on,
with the float64 rounding of every operation of the Savings expression. -/
def PriceRides.loop64 (noWalkPrice : F64) : Nat → List F64 → List (Ride Loc) → MergeOutcome Loc
  | _, [], rides => .returned rides
  | i, price :: rest, rides =>
    match rides[i]? with
    | none => .panicked ⟨i, rides.length⟩ rides
    | some r =>
      let r1 := { r with Price := price }
      let r2 := { r1 with Savings := savings64 noWalkPrice r1.Price }
      PriceRides.loop64 noWalkPrice (i + 1) rest (rides.set i r2)

/-- The part of PriceRides after the response is parsed, in float64. -/
def PriceRides.merge64 (rides : List (Ride Loc)) (prices : List F64) : MergeOutcome Loc :=
  let last : Int := (prices.length : Int) - 1
  if last < 0 then .panicked ⟨last, prices.length⟩ rides
  else
    match prices[last.toNat]? with
    | none => .panicked ⟨last, prices.length⟩ rides
    | some noWalkPrice => PriceRides.loop64 noWalkPrice 0 prices rides

/-- The invariant of a ride: the totals are the sums of the two legs. -/
def Ride.totalsOk (r : Ride Loc) : Prop :=
  r.TotalTime = r.WalkTime + r.DriveTime ∧ r.TotalDistance = r.WalkDistance + r.DriveDistance

/-! ## Sample values -/

/-- A route summary between two numbered locations. -/
def sampleInbound : RouteSummary Nat := ⟨1, 2, 300, 400⟩

/-- A second route summary, from the pickup point on. -/
def sampleOutbound : RouteSummary Nat := ⟨2, 3, 600, 5000⟩

/-- A ride that has not been priced. -/
def sampleRide : Ride Nat := BuildRide sampleInbound sampleOutbound

/-- A feature tuple whose third value, 1025/1024 = 1.0009765625, has more
than six digits after the point. -/
def sampleFeatures : MLPricingData := ⟨1, 2, .fin (mkRat 1025 1024), 4, 5, 6, 7, 8⟩

/-- The float64 value 0.17, which is 6124895493223875 / 2 ^ 55. -/
def double017 : ℚ := 6124895493223875 / 36028797018963968

/-- The float64 value 763.7769812304242, which is 6718253375124025 / 2 ^ 43. -/
def double763 : ℚ := 6718253375124025 / 8796093022208

/-- The float64 value next above 0.25, which is 1/4 + 2 ^ -54. -/
def doubleQuarterNext : ℚ := 4503599627370497 / 18014398509481984

/-! ## float64: evaluation lemmas -/

theorem F64.ofNat_eq_fin (n : Nat) [n.AtLeastTwo] : (OfNat.ofNat n : F64) = .fin (n : ℚ) := rfl

theorem F64.zero_eq_fin : (0 : F64) = .fin 0 := by
  show F64.fin ((0 : Nat) : ℚ) = .fin 0
  rw [Nat.cast_zero]

theorem F64.fin_add (a b : ℚ) : F64.fin a + F64.fin b = .fin (a + b) := rfl

theorem F64.fin_sub (a b : ℚ) : F64.fin a - F64.fin b = .fin (a - b) := by
  show F64.fin (a + -b) = .fin (a - b)
  rw [sub_eq_add_neg]

theorem F64.fin_mul (a b : ℚ) : F64.fin a * F64.fin b = .fin (a * b) := rfl

theorem F64.fin_div (a b : ℚ) :
    F64.fin a / F64.fin b = if b = 0 then F64.infOfSign a else .fin (a / b) := rfl

/-! ## Ride assembler: properties -/

theorem BuildRides.loop_range (inbounds outbounds : List (RouteSummary Loc)) :
    ∀ (n k : Nat) (acc : List (Ride Loc)), k + n ≤ inbounds.length → k + n ≤ outbounds.length →
      BuildRides.loop inbounds outbounds (List.range' k n) acc =
        .ok (acc ++ ((List.zipWith BuildRide inbounds outbounds).drop k).take n) := by
  intro n
  induction n with
  | zero => intro k acc _ _; simp [BuildRides.loop]
  | succ n ih =>
    intro k acc hi ho
    have hki : k < inbounds.length := by omega
    have hko : k < outbounds.length := by omega
    have hz : k < (List.zipWith BuildRide inbounds outbounds).length := by
      simp [List.length_zipWith]; omega
    rw [List.range'_succ, BuildRides.loop, List.getElem?_eq_getElem hki]
    simp only []
    rw [List.getElem?_eq_getElem hko]
    simp only []
    rw [ih (k + 1) _ (by omega) (by omega), List.drop_eq_getElem_cons hz, List.take_succ_cons]
    simp [List.getElem_zipWith]

theorem BuildRides_eq_zipWith (inbounds outbounds : List (RouteSummary Loc))
    (h : inbounds.length = outbounds.length) :
    BuildRides inbounds outbounds = .ok (List.zipWith BuildRide inbounds outbounds) := by
  unfold BuildRides
  rw [List.range_eq_range', BuildRides.loop_range inbounds outbounds _ 0 [] (by omega) (by omega)]
  simp [List.length_zipWith, h]

/-- C2: the ride built by BuildRide has TotalTime = WalkTime + DriveTime and
TotalDistance = WalkDistance + DriveDistance, and its Price and Savings are 0. -/
theorem BuildRide_totals (inbound outbound : RouteSummary Loc) :
    (BuildRide inbound outbound).TotalTime =
        (BuildRide inbound outbound).WalkTime + (BuildRide inbound outbound).DriveTime ∧
      (BuildRide inbound outbound).TotalDistance =
        (BuildRide inbound outbound).WalkDistance + (BuildRide inbound outbound).DriveDistance ∧
      (BuildRide inbound outbound).Price = 0 ∧ (BuildRide inbound outbound).Savings = 0 :=
  ⟨rfl, rfl, rfl, rfl⟩

/-- C9: BuildRide copies the locations and the measurements of the two legs
through unchanged. -/
theorem BuildRide_copies (inbound outbound : RouteSummary Loc) :
    (BuildRide inbound outbound).Source = inbound.Source ∧
      (BuildRide inbound outbound).PickupPoint = inbound.Destination ∧
      (BuildRide inbound outbound).Destination = outbound.Destination ∧
      (BuildRide inbound outbound).WalkTime = inbound.Time ∧
      (BuildRide inbound outbound).WalkDistance = inbound.Distance ∧
      (BuildRide inbound outbound).DriveTime = outbound.Time ∧
      (BuildRide inbound outbound).DriveDistance = outbound.Distance :=
  ⟨rfl, rfl, rfl, rfl, rfl, rfl, rfl⟩

/-- C3: on two lists of equal length BuildRides returns, without a panic, a
list of that length whose element at each index i is
BuildRide(inbounds[i], outbounds[i]); on two empty lists it returns the empty
list. -/
theorem BuildRides_paired (inbounds outbounds : List (RouteSummary Loc))
    (h : inbounds.length = outbounds.length) :
    ∃ rides, BuildRides inbounds outbounds = .ok rides ∧ rides.length = inbounds.length ∧
      (∀ (i : Nat) (hi : i < inbounds.length) (ho : i < outbounds.length),
        rides[i]? = some (BuildRide inbounds[i] outbounds[i])) ∧
      (inbounds = [] → rides = []) := by
  refine ⟨_, BuildRides_eq_zipWith inbounds outbounds h, ?_, ?_, ?_⟩
  · simp [List.length_zipWith, h]
  · intro i hi ho
    rw [List.getElem?_eq_getElem (by simp [List.length_zipWith]; omega), List.getElem_zipWith]
  · intro h0
    simp [h0]

theorem BuildRides_paired_witness :
    (∃ rides, BuildRides [sampleInbound, sampleOutbound] [sampleOutbound, sampleInbound] = .ok rides ∧
      rides.length = 2 ∧ rides[1]? = some (BuildRide sampleOutbound sampleInbound)) ∧
    BuildRides ([] : List (RouteSummary Nat)) [] = .ok [] := by
  constructor
  · obtain ⟨rides, h1, h2, h3, _⟩ := BuildRides_paired [sampleInbound, sampleOutbound]
      [sampleOutbound, sampleInbound] rfl
    exact ⟨rides, h1, h2, h3 1 (by decide) (by decide)⟩
  · obtain ⟨rides, h1, _, _, h4⟩ := BuildRides_paired ([] : List (RouteSummary Nat)) [] rfl
    rw [h1, h4 rfl]

/-! ## Price merger: the loop -/

/-- One iteration of the loop, with the two assignments folded into reprice. -/
theorem PriceRides.loop_cons (noWalkPrice price : F64) (rest : List F64) (i : Nat)
    (rides : List (Ride Loc)) :
    PriceRides.loop noWalkPrice i (price :: rest) rides =
      match rides[i]? with
      | none => .panicked ⟨i, rides.length⟩ rides
      | some r => PriceRides.loop noWalkPrice (i + 1) rest (rides.set i (reprice noWalkPrice r price)) :=
  rfl

/-- The slice after the loop, index by index: outside the window of the
prices it is untouched, inside it every ride is repriced. -/
theorem PriceRides.loop_rides (noWalkPrice : F64) :
    ∀ (prices : List F64) (i : Nat) (rides : List (Ride Loc)),
      (PriceRides.loop noWalkPrice i prices rides).rides.length = rides.length ∧
      (∀ j, j < i ∨ i + prices.length ≤ j →
        (PriceRides.loop noWalkPrice i prices rides).rides[j]? = rides[j]?) ∧
      (∀ k r p, rides[i + k]? = some r → prices[k]? = some p →
        (PriceRides.loop noWalkPrice i prices rides).rides[i + k]? =
          some (reprice noWalkPrice r p)) := by
  intro prices
  induction prices with
  | nil => intro i rides; simp [PriceRides.loop, MergeOutcome.rides]
  | cons price rest ih =>
    intro i rides
    rw [PriceRides.loop_cons]
    cases hri : rides[i]? with
    | none =>
      have hlen : rides.length ≤ i := by
        rcases Nat.lt_or_ge i rides.length with h | h
        · rw [List.getElem?_eq_getElem h] at hri; cases hri
        · exact h
      refine ⟨rfl, fun _ _ => rfl, ?_⟩
      intro k r p hr _
      have : i + k < rides.length := by
        rcases Nat.lt_or_ge (i + k) rides.length with h | h
        · exact h
        · rw [List.getElem?_eq_none h] at hr; cases hr
      omega
    | some r0 =>
      simp only []
      obtain ⟨h1, h2, h3⟩ := ih (i + 1) (rides.set i (reprice noWalkPrice r0 price))
      refine ⟨by rw [h1, List.length_set], ?_, ?_⟩
      · intro j hj
        have hne : i ≠ j := by
          rcases hj with h | h
          · omega
          · simp only [List.length_cons] at h; omega
        rw [h2 j (by simp only [List.length_cons] at hj; omega), List.getElem?_set_ne hne]
      · intro k r p hr hp
        cases k with
        | zero =>
          have hi : i < rides.length := by
            rcases Nat.lt_or_ge i rides.length with h | h
            · exact h
            · rw [List.getElem?_eq_none h] at hri; cases hri
          simp only [Nat.add_zero] at hr ⊢
          rw [hri] at hr
          simp only [List.getElem?_cons_zero] at hp
          cases hr; cases hp
          rw [h2 i (Or.inl (Nat.lt_succ_self i)), List.getElem?_set_self hi]
        | succ k =>
          have e : i + (k + 1) = i + 1 + k := by omega
          rw [e] at hr ⊢
          simp only [List.getElem?_cons_succ] at hp
          apply h3 k r p _ hp
          rw [List.getElem?_set_ne (by omega)]
          exact hr

/-- The loop returns when the slice is long enough for every price. -/
theorem PriceRides.loop_returns (noWalkPrice : F64) :
    ∀ (prices : List F64) (i : Nat) (rides : List (Ride Loc)),
      i + prices.length ≤ rides.length →
      ∃ out, PriceRides.loop noWalkPrice i prices rides = .returned out := by
  intro prices
  induction prices with
  | nil => intro i rides _; exact ⟨rides, rfl⟩
  | cons price rest ih =>
    intro i rides h
    simp only [List.length_cons] at h
    have hi : i < rides.length := by omega
    rw [PriceRides.loop_cons, List.getElem?_eq_getElem hi]
    simp only []
    exact ih (i + 1) _ (by rw [List.length_set]; omega)

/-- The loop panics at index len(rides) when there are more prices than
rides left. -/
theorem PriceRides.loop_panics (noWalkPrice : F64) :
    ∀ (prices : List F64) (i : Nat) (rides : List (Ride Loc)),
      i ≤ rides.length → rides.length < i + prices.length →
      ∃ out, PriceRides.loop noWalkPrice i prices rides =
        .panicked ⟨rides.length, rides.length⟩ out := by
  intro prices
  induction prices with
  | nil => intro i rides h1 h2; simp only [List.length_nil] at h2; omega
  | cons price rest ih =>
    intro i rides h1 h2
    simp only [List.length_cons] at h2
    rw [PriceRides.loop_cons]
    rcases Nat.lt_or_ge i rides.length with hi | hi
    · rw [List.getElem?_eq_getElem hi]
      simp only []
      obtain ⟨out, hout⟩ := ih (i + 1) (rides.set i
        (reprice noWalkPrice rides[i] price)) (by rw [List.length_set]; omega)
        (by rw [List.length_set]; omega)
      rw [List.length_set] at hout
      exact ⟨out, hout⟩
    · have e : i = rides.length := by omega
      rw [List.getElem?_eq_none hi]
      exact ⟨rides, by rw [e]⟩

/-- The merging step on a non-empty list of prices is the loop run with the
last price as baseline. -/
theorem PriceRides.merge_eq_loop (rides : List (Ride Loc)) (prices : List F64) (baseline : F64)
    (hlast : prices.getLast? = some baseline) :
    PriceRides.merge rides prices = PriceRides.loop baseline 0 prices rides := by
  have hne : prices ≠ [] := by
    intro h; rw [h] at hlast; cases hlast
  have hpos : 0 < prices.length := List.length_pos.mpr hne
  have hidx : prices[prices.length - 1]? = some baseline := by
    rw [← hlast, List.getLast?_eq_getElem?]
  unfold PriceRides.merge
  have h1 : ¬ ((prices.length : Int) - 1 < 0) := by omega
  have h2 : ((prices.length : Int) - 1).toNat = prices.length - 1 := by omega
  simp only [h1, if_false, h2, hidx]

/-- The merging step panics on an empty list of prices, before any write. -/
theorem PriceRides.merge_nil (rides : List (Ride Loc)) :
    PriceRides.merge rides [] = .panicked ⟨-1, 0⟩ rides := by
  simp [PriceRides.merge]

/-! ## Price merger: properties -/

/-- The merging step on a non-empty list of prices no longer than the slice:
it returns, the rides in front are repriced against the last price and the
others are untouched. -/
theorem PriceRides.merge_returns (rides : List (Ride Loc)) (prices : List F64) (baseline : F64)
    (hlast : prices.getLast? = some baseline) (hlen : prices.length ≤ rides.length) :
    ∃ out, PriceRides.merge rides prices = .returned out ∧ out.length = rides.length ∧
      (∀ (i : Nat) (r : Ride Loc) (p : F64), rides[i]? = some r → prices[i]? = some p →
        out[i]? = some (reprice baseline r p)) ∧
      (∀ (i : Nat), prices.length ≤ i → out[i]? = rides[i]?) := by
  obtain ⟨out, hout⟩ := PriceRides.loop_returns baseline prices 0 rides (by omega)
  have hm := PriceRides.loop_rides baseline prices 0 rides
  rw [hout] at hm
  simp only [MergeOutcome.rides, Nat.zero_add] at hm
  refine ⟨out, by rw [PriceRides.merge_eq_loop rides prices baseline hlast, hout], hm.1, hm.2.2, ?_⟩
  intro i hi
  exact hm.2.1 i (Or.inr hi)

/-- C1, as the code has it: for every ride list and every non-empty prices
list no longer than the ride list, whose last element baseline is non-zero,
the merging step returns and, for every index i in [0, len(prices)), ride i has
Price = prices[i] and Savings = 100 * (baseline - prices[i]) / baseline. -/
theorem PriceRides.merge_prices_savings (rides : List (Ride Loc)) (prices : List F64)
    (baseline : F64) (hlast : prices.getLast? = some baseline) (_hnz : baseline ≠ 0)
    (hlen : prices.length ≤ rides.length) :
    ∃ out, PriceRides.merge rides prices = .returned out ∧
      ∀ (i : Nat) (hi : i < prices.length), ∃ r, out[i]? = some r ∧ r.Price = prices[i] ∧
        r.Savings = 100 * (baseline - prices[i]) / baseline := by
  obtain ⟨out, h1, _, h3, _⟩ := PriceRides.merge_returns rides prices baseline hlast hlen
  refine ⟨out, h1, ?_⟩
  intro i hi
  have hr : i < rides.length := by omega
  exact ⟨_, h3 i rides[i] prices[i] (List.getElem?_eq_getElem hr) (List.getElem?_eq_getElem hi),
    rfl, rfl⟩

theorem PriceRides.merge_prices_savings_witness :
    ∃ out, PriceRides.merge [sampleRide, sampleRide, sampleRide] [10, 20, 40] = .returned out ∧
      (∃ r, out[0]? = some r ∧ r.Price = 10 ∧ r.Savings = 75) ∧
      (∃ r, out[1]? = some r ∧ r.Price = 20 ∧ r.Savings = 50) ∧
      (∃ r, out[2]? = some r ∧ r.Price = 40 ∧ r.Savings = 0) := by
  obtain ⟨out, h1, h2⟩ := PriceRides.merge_prices_savings [sampleRide, sampleRide, sampleRide]
    [10, 20, 40] 40 rfl (by decide) (by decide)
  refine ⟨out, h1, ?_, ?_, ?_⟩
  · obtain ⟨r, ha, hb, hc⟩ := h2 0 (by decide)
    refine ⟨r, ha, hb, ?_⟩
    rw [hc]
    simp only [List.getElem_cons_zero, F64.ofNat_eq_fin, F64.fin_sub, F64.fin_mul, F64.fin_div]
    norm_num
  · obtain ⟨r, ha, hb, hc⟩ := h2 1 (by decide)
    refine ⟨r, ha, hb, ?_⟩
    rw [hc]
    simp only [List.getElem_cons_succ, List.getElem_cons_zero, F64.ofNat_eq_fin, F64.fin_sub,
      F64.fin_mul, F64.fin_div]
    norm_num
  · obtain ⟨r, ha, hb, hc⟩ := h2 2 (by decide)
    refine ⟨r, ha, hb, ?_⟩
    rw [hc]
    simp only [List.getElem_cons_succ, List.getElem_cons_zero, F64.ofNat_eq_fin, F64.fin_sub,
      F64.fin_mul, F64.fin_div, F64.zero_eq_fin]
    norm_num

/-- C1 fails as stated: with 2 rides and the prices [10, 20, 40], one more
than the rides, the loop reaches index 2 of a slice of length 2 and the step
ends in a panic instead of returning. -/
theorem PriceRides.merge_one_more_price_panics :
    ([10, 20, 40] : List F64).length = [sampleRide, sampleRide].length + 1 ∧
    ([10, 20, 40] : List F64).getLast? = some 40 ∧ (40 : F64) ≠ 0 ∧
    PriceRides.merge [sampleRide, sampleRide] [10, 20, 40] =
      .panicked ⟨2, 2⟩ [reprice 40 sampleRide 10, reprice 40 sampleRide 20] ∧
    ¬ ∃ out, PriceRides.merge [sampleRide, sampleRide] [10, 20, 40] = .returned out := by
  have h : PriceRides.merge [sampleRide, sampleRide] [10, 20, 40] =
      .panicked ⟨2, 2⟩ [reprice 40 sampleRide 10, reprice 40 sampleRide 20] := rfl
  refine ⟨rfl, rfl, by decide, h, ?_⟩
  rintro ⟨out, hout⟩
  rw [h] at hout
  cases hout

/-- C6 fails as stated: with 2 rides and the single price [5] the step
reports no error; it returns with ride 0 repriced and ride 1 untouched. -/
theorem PriceRides.merge_one_price_two_rides :
    ([5] : List F64).length ≠ [sampleRide, sampleRide].length + 1 ∧
    PriceRides.merge [sampleRide, sampleRide] [5] =
      .returned [{ sampleRide with Price := 5, Savings := 0 }, sampleRide] ∧
    ({ sampleRide with Price := 5, Savings := 0 } : Ride Nat).Price ≠ sampleRide.Price := by
  refine ⟨by decide, ?_, by decide⟩
  have h : PriceRides.merge [sampleRide, sampleRide] [5] =
      .returned [reprice 5 sampleRide 5, sampleRide] := rfl
  rw [h]
  simp only [reprice, F64.ofNat_eq_fin, F64.fin_sub, F64.fin_mul, F64.fin_div, F64.zero_eq_fin]
  norm_num

/-- C6, as the code has it: the step checks no length and reports no error
value. When the length of prices is not len(rides)+1, then either prices is
empty and the step panics at index -1 with the rides untouched; or prices is
no longer than rides and the step returns, with rides 0..len(prices)-1
repriced against the last price and the others untouched; or prices is
longer than len(rides)+1 and the step panics at index len(rides), every ride
of the slice having been repriced. -/
theorem PriceRides.merge_other_lengths (rides : List (Ride Loc)) (prices : List F64)
    (h : prices.length ≠ rides.length + 1) :
    (prices = [] ∧ PriceRides.merge rides prices = .panicked ⟨-1, 0⟩ rides) ∨
    (∃ baseline, prices.getLast? = some baseline ∧ prices.length ≤ rides.length ∧
      ∃ out, PriceRides.merge rides prices = .returned out ∧ out.length = rides.length ∧
        (∀ (i : Nat) (r : Ride Loc) (p : F64), rides[i]? = some r → prices[i]? = some p →
          out[i]? = some (reprice baseline r p)) ∧
        (∀ (i : Nat), prices.length ≤ i → out[i]? = rides[i]?)) ∨
    (∃ baseline, prices.getLast? = some baseline ∧ rides.length + 1 < prices.length ∧
      ∃ out, PriceRides.merge rides prices = .panicked ⟨rides.length, rides.length⟩ out ∧
        out.length = rides.length ∧
        (∀ (i : Nat) (r : Ride Loc) (p : F64), rides[i]? = some r → prices[i]? = some p →
          out[i]? = some (reprice baseline r p))) := by
  cases hl : prices.getLast? with
  | none =>
    rw [List.getLast?_eq_none_iff] at hl
    exact Or.inl ⟨hl, by rw [hl]; exact PriceRides.merge_nil rides⟩
  | some baseline =>
    rcases Nat.lt_or_ge rides.length prices.length with hlt | hge
    · refine Or.inr (Or.inr ⟨baseline, rfl, by omega, ?_⟩)
      obtain ⟨out, hout⟩ := PriceRides.loop_panics baseline prices 0 rides (by omega) (by omega)
      have hm := PriceRides.loop_rides baseline prices 0 rides
      rw [hout] at hm
      simp only [MergeOutcome.rides, Nat.zero_add] at hm
      exact ⟨out, by rw [PriceRides.merge_eq_loop rides prices baseline hl, hout], hm.1, hm.2.2⟩
    · exact Or.inr (Or.inl ⟨baseline, rfl, hge,
        PriceRides.merge_returns rides prices baseline hl hge⟩)

theorem PriceRides.merge_other_lengths_witness :
    ([5] : List F64).length ≠ [sampleRide, sampleRide].length + 1 ∧
    ∃ out, PriceRides.merge [sampleRide, sampleRide] [5] = .returned out ∧
      out[0]? = some (reprice 5 sampleRide 5) ∧ out[1]? = some sampleRide := by
  refine ⟨by decide, ?_⟩
  rcases PriceRides.merge_other_lengths [sampleRide, sampleRide] [5] (by decide) with
    h | ⟨b, hb, _, out, h1, _, h3, h4⟩ | ⟨b, _, hlt, _⟩
  · exact absurd h.1 (by decide)
  · cases hb
    exact ⟨out, h1, h3 0 sampleRide 5 rfl rfl, h4 1 (by decide)⟩
  · exact absurd hlt (by decide)

/-- C7 fails on the code: nothing guards the division. With one ride and the
prices [0] the baseline is 0 and the ride gets Savings = 0/0 = NaN; with two
rides and the prices [10, 0] ride 0 gets Savings = -1000/0 = -Inf. -/
theorem PriceRides.merge_zero_baseline :
    PriceRides.merge [sampleRide] [0] =
      .returned [{ sampleRide with Price := 0, Savings := .nan }] ∧
    PriceRides.merge [sampleRide, sampleRide] [10, 0] =
      .returned [{ sampleRide with Price := 10, Savings := .negInf },
        { sampleRide with Price := 0, Savings := .nan }] := by
  have h1 : PriceRides.merge [sampleRide] [0] = .returned [reprice 0 sampleRide 0] := rfl
  have h2 : PriceRides.merge [sampleRide, sampleRide] [10, 0] =
      .returned [reprice 0 sampleRide 10, reprice 0 sampleRide 0] := rfl
  rw [h1, h2]
  simp only [reprice, F64.ofNat_eq_fin, F64.fin_sub, F64.fin_mul, F64.fin_div, F64.zero_eq_fin,
    F64.infOfSign]
  norm_num

/-- C10: when the merging step returns, the returned list has the length of
the input list and, at every index, every field of the ride other than Price
and Savings is the field of the input ride. -/
theorem PriceRides.merge_frame (rides : List (Ride Loc)) (prices : List F64)
    (out : List (Ride Loc)) (h : PriceRides.merge rides prices = .returned out) :
    out.length = rides.length ∧
    ∀ (i : Nat) (r r1 : Ride Loc), rides[i]? = some r → out[i]? = some r1 →
      r1.Source = r.Source ∧ r1.PickupPoint = r.PickupPoint ∧ r1.Destination = r.Destination ∧
      r1.WalkTime = r.WalkTime ∧ r1.WalkDistance = r.WalkDistance ∧
      r1.DriveTime = r.DriveTime ∧ r1.DriveDistance = r.DriveDistance ∧
      r1.TotalTime = r.TotalTime ∧ r1.TotalDistance = r.TotalDistance := by
  cases hl : prices.getLast? with
  | none =>
    rw [List.getLast?_eq_none_iff] at hl
    rw [hl, PriceRides.merge_nil] at h
    cases h
  | some baseline =>
    have hm := PriceRides.loop_rides baseline prices 0 rides
    rw [← PriceRides.merge_eq_loop rides prices baseline hl, h] at hm
    simp only [MergeOutcome.rides, Nat.zero_add] at hm
    refine ⟨hm.1, ?_⟩
    intro i r r1 hr hr1
    rcases Nat.lt_or_ge i prices.length with hi | hi
    · rw [hm.2.2 i r prices[i] hr (List.getElem?_eq_getElem hi)] at hr1
      cases hr1
      exact ⟨rfl, rfl, rfl, rfl, rfl, rfl, rfl, rfl, rfl⟩
    · rw [hm.2.1 i (Or.inr hi), hr] at hr1
      cases hr1
      exact ⟨rfl, rfl, rfl, rfl, rfl, rfl, rfl, rfl, rfl⟩

theorem PriceRides.merge_frame_witness :
    PriceRides.merge [sampleRide, sampleRide] [10, 40] =
      .returned [reprice 40 sampleRide 10, reprice 40 sampleRide 40] ∧
    [reprice 40 sampleRide 10, reprice 40 sampleRide 40].length = [sampleRide, sampleRide].length ∧
    (reprice 40 sampleRide 10).TotalTime = sampleRide.TotalTime ∧
    (reprice 40 sampleRide 10).Source = sampleRide.Source :=
  have h := PriceRides.merge_frame [sampleRide, sampleRide] [10, 40]
    [reprice 40 sampleRide 10, reprice 40 sampleRide 40] rfl
  have h0 := h.2 0 sampleRide (reprice 40 sampleRide 10) rfl rfl
  ⟨rfl, h.1, h0.2.2.2.2.2.2.2.1, h0.1⟩

/-! ## Feature encoder: shape of the text -/

theorem intercalate_go_append (sep x : String) :
    ∀ (l : List String) (acc : String),
      String.intercalate.go (x ++ acc) sep l = x ++ String.intercalate.go acc sep l := by
  intro l
  induction l with
  | nil => intro acc; rfl
  | cons a l ih =>
    intro acc
    simp only [String.intercalate.go]
    rw [String.append_assoc, String.append_assoc, ih, String.append_assoc]

theorem intercalate_cons_cons (sep a b : String) (l : List String) :
    sep.intercalate (a :: b :: l) = a ++ sep ++ sep.intercalate (b :: l) := by
  simp only [String.intercalate, String.intercalate.go]
  rw [String.append_assoc, intercalate_go_append, intercalate_go_append, String.append_assoc]

/-- The loop appends the remaining rows, with a comma after each one but the
last, when it runs over the tail of pricingData from its own index. -/
theorem BuildPricingJSON.loop_eq (len : Nat) :
    ∀ (rest : List MLPricingData) (i : Nat) (out : String), i + rest.length = len →
      BuildPricingJSON.loop len i rest out =
        out ++ ",".intercalate (rest.map BuildPricingJSON.row) := by
  intro rest
  induction rest with
  | nil => intro i out _; simp [BuildPricingJSON.loop, String.intercalate]
  | cons d rest ih =>
    intro i out h
    simp only [List.length_cons] at h
    cases rest with
    | nil =>
      have hi : (i : Int) = (len : Int) - 1 := by simp only [List.length_nil] at h; omega
      simp [BuildPricingJSON.loop, hi, String.intercalate, String.intercalate.go]
    | cons d1 rest =>
      have hi : (i : Int) ≠ (len : Int) - 1 := by simp only [List.length_cons] at h; omega
      rw [BuildPricingJSON.loop]
      simp only [hi, ne_eq, not_false_eq_true, if_true]
      rw [ih (i + 1) _ (by simp only [List.length_cons] at h ⊢; omega), List.map_cons, List.map_cons,
        List.map_cons, intercalate_cons_cons "," (row d)]
      simp only [String.append_assoc]

theorem BuildPricingJSON_eq (pricingData : List MLPricingData) :
    BuildPricingJSON pricingData =
      "\x7b \"data\": [" ++ ",".intercalate (pricingData.map BuildPricingJSON.row) ++ "]\x7d" := by
  unfold BuildPricingJSON
  rw [BuildPricingJSON.loop_eq pricingData.length pricingData 0 _ (by omega)]

/-- C4: the text of BuildPricingJSON is a data array holding one bracketed
array per tuple, in input order, with a single comma between two of them and
none in front or behind; each bracketed array holds the 8 formatted features in
the order of the fields; the tuple (1,2,3,4,5,6,7,8) gives one array with the
values 1 to 8 in that order. -/
theorem BuildPricingJSON_shape :
    (∀ pricingData : List MLPricingData, BuildPricingJSON pricingData =
      "\x7b \"data\": [" ++ ",".intercalate (pricingData.map BuildPricingJSON.row) ++ "]\x7d") ∧
    (∀ data : MLPricingData, BuildPricingJSON.row data =
      "[" ++ ",".intercalate [data.TimeInSeconds.format, data.DistanceInMeters.format,
        F64.format data.TimeToHistoricRatio, F64.format data.TimeToNoTrafficRatio,
        data.DayOfWeekSin.format, data.DayOfWeekCos.format,
        data.TimeOfDaySin.format, data.TimeOfDayCos.format] ++ "]") ∧
    BuildPricingJSON [⟨1, 2, 3, 4, 5, 6, 7, 8⟩] =
      "\x7b \"data\": [[1.000000,2.000000,3.000000,4.000000,5.000000,6.000000,7.000000,8.000000]]\x7d" := by
  refine ⟨BuildPricingJSON_eq, ?_, by decide⟩
  intro data
  simp only [BuildPricingJSON.row, String.intercalate, String.intercalate.go, String.append_assoc]

/-- C5 fails as stated: the text for the empty list has a blank after the
opening brace, so it is not the string of the claim. -/
theorem BuildPricingJSON_nil_ne : BuildPricingJSON [] ≠ "\x7b\"data\": []\x7d" := by
  decide

/-- C5, as the code has it: BuildPricingJSON applied to the empty list
returns exactly the string that reads: brace, blank, "data": [] and brace. -/
theorem BuildPricingJSON_nil : BuildPricingJSON [] = "\x7b \"data\": []\x7d" := by
  decide

/-! ## Feature encoder: reading the text back -/

theorem digitVal_digitChar (d : Nat) (h : d < 10) : digitVal (digitChar d) = some d := by
  interval_cases d <;> rfl

theorem digitChar_ne_minus (d : Nat) (h : d < 10) : digitChar d ≠ '-' := by
  interval_cases d <;> decide

theorem noDigitAhead_cons (c : Char) (t : List Char) (h : digitVal c = none) :
    NoDigitAhead (c :: t) := by
  intro c1 t1 e
  cases e
  exact h

theorem readDigits_digits :
    ∀ (ds : List Nat) (acc cnt : Nat) (rest : List Char), (∀ d ∈ ds, d < 10) →
      NoDigitAhead rest →
      readDigits (ds.map digitChar ++ rest) acc cnt =
        (ds.foldl (fun a d => a * 10 + d) acc, cnt + ds.length, rest) := by
  intro ds
  induction ds with
  | nil =>
    intro acc cnt rest _ hrest
    cases rest with
    | nil => rfl
    | cons c t =>
      simp only [List.map_nil, List.nil_append, readDigits, hrest c t rfl, List.foldl_nil,
        List.length_nil, Nat.add_zero]
  | cons d ds ih =>
    intro acc cnt rest hds hrest
    have hd : d < 10 := hds d (List.mem_cons_self d ds)
    rw [List.map_cons, List.cons_append, readDigits, digitVal_digitChar d hd]
    simp only []
    rw [ih _ _ rest (fun x hx => hds x (List.mem_cons_of_mem d hx)) hrest]
    simp only [List.foldl_cons, List.length_cons]
    congr 2
    omega

theorem natDigitsAux_digits :
    ∀ (fuel n : Nat) (acc : List Char), n < fuel →
      ∃ ds : List Nat, ds ≠ [] ∧ (∀ d ∈ ds, d < 10) ∧ digitsValue ds = n ∧
        natDigitsAux fuel n acc = ds.map digitChar ++ acc := by
  intro fuel
  induction fuel with
  | zero => intro n acc h; omega
  | succ fuel ih =>
    intro n acc h
    rw [natDigitsAux]
    by_cases hn : n < 10
    · refine ⟨[n], by simp, ?_, by simp [digitsValue], by simp [hn]⟩
      intro d hd
      simp only [List.mem_singleton] at hd
      omega
    · obtain ⟨ds, h1, h2, h3, h4⟩ := ih (n / 10) (digitChar (n % 10) :: acc) (by omega)
      refine ⟨ds ++ [n % 10], by simp, ?_, ?_, ?_⟩
      · intro d hd
        rcases List.mem_append.mp hd with hd | hd
        · exact h2 d hd
        · simp only [List.mem_singleton] at hd
          omega
      · unfold digitsValue at h3 ⊢
        rw [List.foldl_append, h3]
        simp only [List.foldl_cons, List.foldl_nil]
        omega
      · simp only [hn, if_false, h4, List.map_append, List.map_cons, List.map_nil,
          List.append_assoc, List.singleton_append]

theorem natDigits_digits (n : Nat) :
    ∃ ds : List Nat, ds ≠ [] ∧ (∀ d ∈ ds, d < 10) ∧ digitsValue ds = n ∧
      natDigits n = ds.map digitChar := by
  obtain ⟨ds, h1, h2, h3, h4⟩ := natDigitsAux_digits (n + 1) n [] (by omega)
  exact ⟨ds, h1, h2, h3, by rw [natDigits, h4, List.append_nil]⟩

theorem fracDigits6_digits (m : Nat) (h : m < 1000000) :
    ∃ ds : List Nat, ds.length = 6 ∧ (∀ d ∈ ds, d < 10) ∧ digitsValue ds = m ∧
      fracDigits6 m = ds.map digitChar := by
  refine ⟨[m / 100000 % 10, m / 10000 % 10, m / 1000 % 10, m / 100 % 10, m / 10 % 10, m % 10],
    rfl, ?_, ?_, rfl⟩
  · intro d hd
    simp only [List.mem_cons, List.mem_singleton, List.not_mem_nil, or_false] at hd
    omega
  · simp only [digitsValue, List.foldl_cons, List.foldl_nil]
    omega

/-- Reading back the digits around the point gives the millionths. -/
theorem parseUnsigned_fixed6 (n : Nat) (rest : List Char) (hrest : NoDigitAhead rest) :
    parseUnsigned (natDigits (n / 1000000) ++ ['.'] ++ fracDigits6 (n % 1000000) ++ rest) =
      some ((n : ℚ) / 1000000, rest) := by
  obtain ⟨ds, _, h2, h3, h4⟩ := natDigits_digits (n / 1000000)
  obtain ⟨fs, g1, g2, g3, g4⟩ := fracDigits6_digits (n % 1000000) (Nat.mod_lt _ (by norm_num))
  have hlen : 0 < ds.length := List.length_pos.mpr ‹ds ≠ []›
  unfold digitsValue at h3 g3
  have e1 : readDigits (ds.map digitChar ++ ('.' :: (fs.map digitChar ++ rest))) 0 0 =
      (n / 1000000, 0 + ds.length, '.' :: (fs.map digitChar ++ rest)) := by
    rw [readDigits_digits ds 0 0 _ h2 (noDigitAhead_cons _ _ (by decide)), h3]
  have e2 : readDigits (fs.map digitChar ++ rest) 0 0 = (n % 1000000, 0 + fs.length, rest) := by
    rw [readDigits_digits fs 0 0 _ g2 hrest, g3]
  have hne : ¬ (0 + ds.length = 0) := by omega
  unfold parseUnsigned
  rw [h4, g4]
  simp only [List.append_assoc, List.singleton_append, List.cons_append, List.nil_append]
  rw [e1]
  simp only [hne, if_false, if_true, e2, g1]
  have hq : ((n / 1000000 : Nat) : ℚ) * 1000000 + ((n % 1000000 : Nat) : ℚ) = (n : ℚ) := by
    have := Nat.div_add_mod n 1000000
    exact_mod_cast (by omega : n / 1000000 * 1000000 + n % 1000000 = n)
  norm_num
  rw [← hq]
  field_simp

/-- Reading back the %f text of a finite value gives the value rounded to
six digits after the point. -/
theorem parseNumber_formatFixed6 (q : ℚ) (rest : List Char) (hrest : NoDigitAhead rest) :
    parseNumber (formatFixed6 q ++ rest) = some (round6 q, rest) := by
  have hu := parseUnsigned_fixed6 (scaled6 q) rest hrest
  unfold formatFixed6 round6
  by_cases hq : q < 0
  · simp only [hq, if_true, List.append_assoc, List.singleton_append, List.cons_append,
      List.nil_append] at hu ⊢
    rw [parseNumber]
    simp only [if_true, hu]
    norm_num
  · obtain ⟨ds, h1, h2, _, h4⟩ := natDigits_digits (scaled6 q / 1000000)
    cases ds with
    | nil => exact absurd rfl h1
    | cons d ds =>
      have hd : digitChar d ≠ '-' := digitChar_ne_minus d (h2 d (List.mem_cons_self d ds))
      simp only [hq, if_false, List.nil_append, one_mul] at hu ⊢
      rw [h4] at hu ⊢
      simp only [List.map_cons, List.cons_append, List.append_assoc] at hu ⊢
      rw [parseNumber]
      simp only [hd, if_false]
      exact hu

theorem parseField_formatFixed6 (stop : Char) (hstop : digitVal stop = none) (q : ℚ)
    (rest : List Char) :
    parseField stop (formatFixed6 q ++ stop :: rest) = some (.fin (round6 q), rest) := by
  unfold parseField
  rw [parseNumber_formatFixed6 q (stop :: rest) (noDigitAhead_cons stop rest hstop)]
  simp [expectChar]

theorem F64.eq_fin_of_isFinite (x : F64) (h : x.isFinite = true) : ∃ q, x = .fin q := by
  cases x with
  | fin q => exact ⟨q, rfl⟩
  | posInf => cases h
  | negInf => cases h
  | nan => cases h

/-- The characters of one row. -/
theorem BuildPricingJSON.row_data (q0 q1 q2 q3 q4 q5 q6 q7 : ℚ) :
    (BuildPricingJSON.row ⟨.fin q0, .fin q1, .fin q2, .fin q3, .fin q4, .fin q5, .fin q6,
        .fin q7⟩).data =
      '[' :: (formatFixed6 q0 ++ ',' :: (formatFixed6 q1 ++ ',' :: (formatFixed6 q2 ++ ',' ::
        (formatFixed6 q3 ++ ',' :: (formatFixed6 q4 ++ ',' :: (formatFixed6 q5 ++ ',' ::
        (formatFixed6 q6 ++ ',' :: (formatFixed6 q7 ++ [']'])))))))) := by
  simp [BuildPricingJSON.row, F64.format, String.data_append]

/-- Reading back one row gives the tuple of the rounded values. -/
theorem parseRow_row (data : MLPricingData) (hfin : data.allFinite) (rest : List Char) :
    parseRow ((BuildPricingJSON.row data).data ++ rest) = some (data.round6, rest) := by
  obtain ⟨f0, f1, f2, f3, f4, f5, f6, f7⟩ := data
  obtain ⟨h0, h1, h2, h3, h4, h5, h6, h7⟩ := hfin
  obtain ⟨q0, rfl⟩ := F64.eq_fin_of_isFinite f0 h0
  obtain ⟨q1, rfl⟩ := F64.eq_fin_of_isFinite f1 h1
  obtain ⟨q2, rfl⟩ := F64.eq_fin_of_isFinite f2 h2
  obtain ⟨q3, rfl⟩ := F64.eq_fin_of_isFinite f3 h3
  obtain ⟨q4, rfl⟩ := F64.eq_fin_of_isFinite f4 h4
  obtain ⟨q5, rfl⟩ := F64.eq_fin_of_isFinite f5 h5
  obtain ⟨q6, rfl⟩ := F64.eq_fin_of_isFinite f6 h6
  obtain ⟨q7, rfl⟩ := F64.eq_fin_of_isFinite f7 h7
  have hc : digitVal ',' = none := by decide
  have hb : digitVal ']' = none := by decide
  rw [BuildPricingJSON.row_data]
  simp only [List.cons_append, List.append_assoc, List.nil_append, List.singleton_append]
  unfold parseRow
  simp only [expectChar, if_true, Option.bind_eq_bind, Option.some_bind, Option.pure_def,
    parseField_formatFixed6 ',' hc, parseField_formatFixed6 ']' hb]
  rfl

theorem intercalate_singleton (sep a : String) : sep.intercalate [a] = a := rfl

/-- Reading back the rows of a non-empty list of tuples. -/
theorem parseRows_rows :
    ∀ (ds : List MLPricingData) (d : MLPricingData) (fuel : Nat) (rest : List Char),
      (∀ x ∈ d :: ds, x.allFinite) → ds.length < fuel → NoCommaAhead rest →
      parseRows fuel ((",".intercalate ((d :: ds).map BuildPricingJSON.row)).data ++ rest) =
        some ((d :: ds).map MLPricingData.round6, rest) := by
  intro ds
  induction ds with
  | nil =>
    intro d fuel rest hfin hfuel hrest
    cases fuel with
    | zero => simp only [List.length_nil] at hfuel; omega
    | succ fuel =>
      rw [List.map_cons, List.map_nil, intercalate_singleton, parseRows,
        parseRow_row d (hfin d (List.mem_cons_self d [])) rest]
      cases rest with
      | nil => rfl
      | cons c t =>
        have hc : c ≠ ',' := hrest c t rfl
        simp only [hc, if_false, List.map_cons, List.map_nil]
  | cons d1 ds ih =>
    intro d fuel rest hfin hfuel hrest
    cases fuel with
    | zero => omega
    | succ fuel =>
      simp only [List.length_cons] at hfuel
      rw [List.map_cons, List.map_cons, intercalate_cons_cons, ← List.map_cons]
      simp only [String.data_append, List.append_assoc]
      rw [parseRows, parseRow_row d (hfin d (List.mem_cons_self d _))]
      have hd : (",".data ++ ((",".intercalate ((d1 :: ds).map BuildPricingJSON.row)).data ++ rest)) =
          ',' :: ((",".intercalate ((d1 :: ds).map BuildPricingJSON.row)).data ++ rest) := rfl
      rw [hd]
      simp only [if_true]
      rw [ih d1 fuel rest (fun x hx => hfin x (List.mem_cons_of_mem d hx)) (by omega) hrest]
      simp only [List.map_cons]

theorem expectText_append : ∀ (p rest : List Char), expectText p (p ++ rest) = some rest := by
  intro p
  induction p with
  | nil => intro rest; cases rest <;> rfl
  | cons c p ih =>
    intro rest
    rw [List.cons_append, expectText]
    simp only [if_true, ih]

theorem BuildPricingJSON.row_length_pos (data : MLPricingData) :
    0 < (BuildPricingJSON.row data).data.length := by
  have h : ("[" : String).data.length = 1 := rfl
  simp only [BuildPricingJSON.row, String.data_append, List.length_append, h]
  omega

theorem BuildPricingJSON.row_head (data : MLPricingData) :
    ∃ t, (BuildPricingJSON.row data).data = '[' :: t := by
  have h : ("[" : String).data = ['['] := rfl
  simp only [BuildPricingJSON.row, String.data_append, List.append_assoc, h, List.singleton_append]
  exact ⟨_, rfl⟩

theorem rows_length_le :
    ∀ ds : List MLPricingData,
      ds.length ≤ (",".intercalate (ds.map BuildPricingJSON.row)).data.length := by
  intro ds
  induction ds with
  | nil => simp
  | cons d ds ih =>
    cases ds with
    | nil =>
      rw [List.map_cons, List.map_nil, intercalate_singleton]
      have := BuildPricingJSON.row_length_pos d
      simp only [List.length_cons, List.length_nil]
      omega
    | cons d1 ds =>
      rw [List.map_cons, List.map_cons, intercalate_cons_cons, ← List.map_cons]
      simp only [String.data_append, List.length_append, List.length_cons] at ih ⊢
      have := BuildPricingJSON.row_length_pos d
      omega

/-- Decoding the text of BuildPricingJSON gives the tuples with every value
rounded to six digits after the point, when every value is finite. -/
theorem decode_BuildPricingJSON (pricingData : List MLPricingData)
    (hfin : ∀ d ∈ pricingData, d.allFinite) :
    decodePricingJSON (BuildPricingJSON pricingData) =
      some (pricingData.map MLPricingData.round6) := by
  rw [BuildPricingJSON_eq]
  unfold decodePricingJSON
  simp only [String.data_append, List.append_assoc]
  rw [expectText_append]
  cases pricingData with
  | nil => simp [String.intercalate]
  | cons d ds =>
    obtain ⟨t, ht⟩ := BuildPricingJSON.row_head d
    have hne : ¬ ((",".intercalate ((d :: ds).map BuildPricingJSON.row)).data ++ "]\x7d".data =
        "]\x7d".data) := by
      cases ds with
      | nil =>
        rw [List.map_cons, List.map_nil, intercalate_singleton, ht]
        intro h
        have h1 := congrArg List.head? h
        simp at h1
      | cons d1 ds =>
        rw [List.map_cons, List.map_cons, intercalate_cons_cons]
        simp only [String.data_append, List.append_assoc, ht]
        intro h
        have h1 := congrArg List.head? h
        simp at h1
    have hrest : NoCommaAhead ("]\x7d".data) := by
      intro c t e
      have h1 := congrArg List.head? e
      simp at h1
      rw [← h1]
      decide
    have hfuel : ds.length <
        ((",".intercalate ((d :: ds).map BuildPricingJSON.row)).data ++ "]\x7d".data).length := by
      have := rows_length_le (d :: ds)
      simp only [List.length_append, List.length_cons] at this ⊢
      omega
    simp only [hne, if_false]
    rw [parseRows_rows ds d _ _ hfin hfuel hrest]
    simp

/-! ## Feature encoder: the rounding of %f -/

theorem roundHalfEven_near (n d : Nat) (hd : 0 < d) :
    2 * (roundHalfEven n d * d) ≤ 2 * n + d ∧ 2 * n ≤ 2 * (roundHalfEven n d * d) + d := by
  have h1 := Nat.div_add_mod n d
  have h2 : n % d < d := Nat.mod_lt n hd
  have h3 : (n / d + 1) * d = d * (n / d) + d := by ring
  have h4 : n / d * d = d * (n / d) := Nat.mul_comm _ _
  unfold roundHalfEven
  simp only []
  split_ifs <;> simp only [h3, h4] <;> omega

/-- The value that a %f text denotes is within half a millionth of the value
that was formatted. -/
theorem round6_near (q : ℚ) : |round6 q - q| ≤ 1 / 2000000 := by
  have hd : (0 : ℚ) < (q.den : ℚ) := by exact_mod_cast q.den_pos
  have habs : |q| * (q.den : ℚ) = (q.num.natAbs : ℚ) := by
    have h := Rat.mul_den_eq_num q
    rw [Nat.cast_natAbs, Int.cast_abs, ← h, abs_mul, abs_of_pos hd]
  obtain ⟨h1, h2⟩ := roundHalfEven_near (q.num.natAbs * 1000000) q.den q.den_pos
  have g1 : 2 * ((scaled6 q : ℚ) * q.den) ≤ 2 * ((q.num.natAbs : ℚ) * 1000000) + q.den := by
    unfold scaled6; exact_mod_cast h1
  have g2 : 2 * ((q.num.natAbs : ℚ) * 1000000) ≤ 2 * ((scaled6 q : ℚ) * q.den) + q.den := by
    unfold scaled6; exact_mod_cast h2
  rw [← habs] at g1 g2
  have k1 : 2 * (scaled6 q : ℚ) ≤ 2 * (|q| * 1000000) + 1 := by
    apply le_of_mul_le_mul_right _ hd
    linarith
  have k2 : 2 * (|q| * 1000000) ≤ 2 * (scaled6 q : ℚ) + 1 := by
    apply le_of_mul_le_mul_right _ hd
    linarith
  unfold round6
  rw [abs_le]
  by_cases hq : q < 0
  · rw [abs_of_neg hq] at k1 k2
    simp only [hq, if_true]
    constructor <;> linarith
  · rw [abs_of_nonneg (not_lt.mp hq)] at k1 k2
    simp only [hq, if_false]
    constructor <;> linarith

theorem sampleFeatures_allFinite : ∀ d ∈ [sampleFeatures], d.allFinite := by
  intro d hd
  rw [List.mem_singleton] at hd
  rw [hd]
  exact ⟨rfl, rfl, rfl, rfl, rfl, rfl, rfl, rfl⟩

theorem sampleFeatures_round6 :
    sampleFeatures.round6.TimeToHistoricRatio = .fin (1000977 / 1000000) := by
  have h1 : scaled6 (mkRat 1025 1024) = 1000977 := by decide
  have h2 : ¬ (mkRat 1025 1024 < 0) := by decide
  show F64.fin (Pricing.round6 (mkRat 1025 1024)) = .fin (1000977 / 1000000)
  unfold Pricing.round6
  rw [h1]
  simp only [h2, if_false]
  norm_num

/-- C8 fails as stated: the tuple with third value 1025/1024 = 1.0009765625 is
written with the text 1.000977, and decoding the text gives a tuple whose
third value is 1000977/1000000, not the tuple that was encoded. -/
theorem BuildPricingJSON_round_trip_loses_digits :
    BuildPricingJSON [sampleFeatures] =
      "\x7b \"data\": [[1.000000,2.000000,1.000977,4.000000,5.000000,6.000000,7.000000,8.000000]]\x7d" ∧
    decodePricingJSON (BuildPricingJSON [sampleFeatures]) = some [sampleFeatures.round6] ∧
    sampleFeatures.round6.TimeToHistoricRatio = .fin (1000977 / 1000000) ∧
    sampleFeatures.TimeToHistoricRatio = .fin (1025 / 1024) ∧
    decodePricingJSON (BuildPricingJSON [sampleFeatures]) ≠ some [sampleFeatures] := by
  have hdec := decode_BuildPricingJSON [sampleFeatures] sampleFeatures_allFinite
  have hsrc : sampleFeatures.TimeToHistoricRatio = .fin (1025 / 1024) := by
    show F64.fin (mkRat 1025 1024) = .fin (1025 / 1024)
    rw [Rat.mkRat_eq_div]
    norm_num
  refine ⟨by decide, hdec, sampleFeatures_round6, hsrc, ?_⟩
  rw [hdec]
  intro h
  have h1 : sampleFeatures.round6 = sampleFeatures := by
    simpa using h
  have h2 := congrArg MLPricingData.TimeToHistoricRatio h1
  rw [sampleFeatures_round6, hsrc] at h2
  have h3 : (1000977 / 1000000 : ℚ) = 1025 / 1024 := by
    injection h2
  norm_num at h3

/-- C8, as the code has it: for every list of N tuples of finite values,
decoding the data array of the text of BuildPricingJSON yields N tuples whose
8 values are the original values rounded to six digits after the decimal
point (half to even), the precision of %f; each decoded value is within
0.0000005 of the original. -/
theorem BuildPricingJSON_round_trip (pricingData : List MLPricingData)
    (hfin : ∀ d ∈ pricingData, d.allFinite) :
    decodePricingJSON (BuildPricingJSON pricingData) =
      some (pricingData.map MLPricingData.round6) ∧
    (pricingData.map MLPricingData.round6).length = pricingData.length ∧
    ∀ q : ℚ, F64.round6 (.fin q) = .fin (round6 q) ∧ |round6 q - q| ≤ 1 / 2000000 :=
  ⟨decode_BuildPricingJSON pricingData hfin, List.length_map _ _, fun q => ⟨rfl, round6_near q⟩⟩

theorem BuildPricingJSON_round_trip_witness :
    decodePricingJSON (BuildPricingJSON [sampleFeatures]) = some [sampleFeatures.round6] ∧
    |round6 (1025 / 1024) - 1025 / 1024| ≤ 1 / 2000000 :=
  have h := BuildPricingJSON_round_trip [sampleFeatures] sampleFeatures_allFinite
  ⟨h.1, (h.2.2 (1025 / 1024)).2⟩

/-! ## Ride assembler: lists of different lengths -/

/-- The loop panics at index len(outbounds) when inbounds has an index that
outbounds lacks. -/
theorem BuildRides.loop_range_panics (inbounds outbounds : List (RouteSummary Loc)) :
    ∀ (n k : Nat) (acc : List (Ride Loc)), k ≤ outbounds.length → outbounds.length < k + n →
      k + n ≤ inbounds.length →
      BuildRides.loop inbounds outbounds (List.range' k n) acc =
        .error ⟨outbounds.length, outbounds.length⟩ := by
  intro n
  induction n with
  | zero => intro k acc h1 h2 _; omega
  | succ n ih =>
    intro k acc h1 h2 h3
    have hki : k < inbounds.length := by omega
    rw [List.range'_succ, BuildRides.loop, List.getElem?_eq_getElem hki]
    simp only []
    rcases Nat.lt_or_ge k outbounds.length with hko | hko
    · rw [List.getElem?_eq_getElem hko]
      simp only []
      exact ih (k + 1) _ (by omega) (by omega) (by omega)
    · have e : k = outbounds.length := by omega
      rw [List.getElem?_eq_none hko]
      simp only [e]

/-- With no more inbounds than outbounds, BuildRides returns the rides of the
pairs at the indices of inbounds. -/
theorem BuildRides_of_le (inbounds outbounds : List (RouteSummary Loc))
    (h : inbounds.length ≤ outbounds.length) :
    BuildRides inbounds outbounds = .ok (List.zipWith BuildRide inbounds outbounds) := by
  unfold BuildRides
  rw [List.range_eq_range', BuildRides.loop_range inbounds outbounds _ 0 [] (by omega) (by omega)]
  have hl : (List.zipWith BuildRide inbounds outbounds).length = inbounds.length := by
    rw [List.length_zipWith]; omega
  rw [List.drop_zero, List.nil_append, ← hl, List.take_length]

/-- With more inbounds than outbounds, BuildRides panics at index
len(outbounds). -/
theorem BuildRides_of_gt (inbounds outbounds : List (RouteSummary Loc))
    (h : outbounds.length < inbounds.length) :
    BuildRides inbounds outbounds = .error ⟨outbounds.length, outbounds.length⟩ := by
  unfold BuildRides
  rw [List.range_eq_range', BuildRides.loop_range_panics inbounds outbounds _ 0 []
    (by omega) (by omega) (by omega)]

theorem getElem?_zipWith_BuildRide (inbounds outbounds : List (RouteSummary Loc)) (i : Nat)
    (hi : i < inbounds.length) (ho : i < outbounds.length) :
    (List.zipWith BuildRide inbounds outbounds)[i]? =
      some (BuildRide inbounds[i] outbounds[i]) := by
  rw [List.getElem?_eq_getElem (by simp [List.length_zipWith]; omega), List.getElem_zipWith]

/-- C11 fails as stated: with 2 inbounds and 1 outbound BuildRides does not
truncate to one ride; it panics at index 1 of a slice of length 1. -/
theorem BuildRides_longer_inbounds_panics :
    [sampleInbound, sampleInbound].length ≠ [sampleOutbound].length ∧
    BuildRides [sampleInbound, sampleInbound] [sampleOutbound] = .error ⟨1, 1⟩ ∧
    ¬ ∃ rides, BuildRides [sampleInbound, sampleInbound] [sampleOutbound] = .ok rides := by
  have h : BuildRides [sampleInbound, sampleInbound] [sampleOutbound] = .error ⟨1, 1⟩ := rfl
  refine ⟨by decide, h, ?_⟩
  rintro ⟨rides, hr⟩
  rw [h] at hr
  cases hr

/-- C11, as the code has it: for two lists of different lengths, when
inbounds is the shorter one BuildRides returns len(inbounds) =
min(len(inbounds), len(outbounds)) rides, ride i being
BuildRide(inbounds[i], outbounds[i]); when inbounds is the longer one it
panics at index len(outbounds). -/
theorem BuildRides_different_lengths (inbounds outbounds : List (RouteSummary Loc))
    (h : inbounds.length ≠ outbounds.length) :
    (inbounds.length < outbounds.length ∧
      ∃ rides, BuildRides inbounds outbounds = .ok rides ∧
        rides.length = min inbounds.length outbounds.length ∧
        ∀ (i : Nat) (hi : i < inbounds.length) (ho : i < outbounds.length),
          rides[i]? = some (BuildRide inbounds[i] outbounds[i])) ∨
    (outbounds.length < inbounds.length ∧
      BuildRides inbounds outbounds = .error ⟨outbounds.length, outbounds.length⟩) := by
  rcases Nat.lt_or_ge inbounds.length outbounds.length with hlt | hge
  · refine Or.inl ⟨hlt, _, BuildRides_of_le inbounds outbounds (by omega), ?_, ?_⟩
    · rw [List.length_zipWith]
    · intro i hi ho
      exact getElem?_zipWith_BuildRide inbounds outbounds i hi ho
  · exact Or.inr ⟨by omega, BuildRides_of_gt inbounds outbounds (by omega)⟩

theorem BuildRides_different_lengths_witness :
    ∃ rides, BuildRides [sampleInbound] [sampleOutbound, sampleInbound] = .ok rides ∧
      rides.length = 1 ∧ rides[0]? = some (BuildRide sampleInbound sampleOutbound) := by
  rcases BuildRides_different_lengths [sampleInbound] [sampleOutbound, sampleInbound]
    (by decide) with ⟨_, rides, h1, h2, h3⟩ | ⟨hlt, _⟩
  · exact ⟨rides, h1, h2, h3 0 (by decide) (by decide)⟩
  · exact absurd hlt (by decide)

/-- C16: BuildRides fails with an index out of range exactly when inbounds is
longer than outbounds; otherwise it returns exactly len(inbounds) rides, the
same ones as on the first len(inbounds) outbounds alone. -/
theorem BuildRides_fails_iff (inbounds outbounds : List (RouteSummary Loc)) :
    ((∃ p, BuildRides inbounds outbounds = .error p) ↔ outbounds.length < inbounds.length) ∧
    (outbounds.length < inbounds.length →
      BuildRides inbounds outbounds = .error ⟨outbounds.length, outbounds.length⟩) ∧
    (inbounds.length ≤ outbounds.length →
      ∃ rides, BuildRides inbounds outbounds = .ok rides ∧ rides.length = inbounds.length ∧
        (∀ (i : Nat) (hi : i < inbounds.length) (ho : i < outbounds.length),
          rides[i]? = some (BuildRide inbounds[i] outbounds[i])) ∧
        BuildRides inbounds (outbounds.take inbounds.length) = .ok rides) := by
  refine ⟨⟨?_, ?_⟩, BuildRides_of_gt inbounds outbounds, ?_⟩
  · rintro ⟨p, hp⟩
    rcases Nat.lt_or_ge outbounds.length inbounds.length with hlt | hge
    · exact hlt
    · rw [BuildRides_of_le inbounds outbounds hge] at hp
      cases hp
  · intro hlt
    exact ⟨_, BuildRides_of_gt inbounds outbounds hlt⟩
  · intro hle
    refine ⟨_, BuildRides_of_le inbounds outbounds hle, ?_, ?_, ?_⟩
    · rw [List.length_zipWith]; omega
    · intro i hi ho
      exact getElem?_zipWith_BuildRide inbounds outbounds i hi ho
    · rw [BuildRides_of_le inbounds (outbounds.take inbounds.length)
        (by rw [List.length_take]; omega)]
      congr 1
      apply List.ext_getElem?
      intro i
      rcases Nat.lt_or_ge i inbounds.length with hi | hi
      · have ho : i < outbounds.length := by omega
        have ht : i < (outbounds.take inbounds.length).length := by
          rw [List.length_take]; omega
        rw [getElem?_zipWith_BuildRide inbounds _ i hi ht,
          getElem?_zipWith_BuildRide inbounds outbounds i hi ho, List.getElem_take]
      · rw [List.getElem?_eq_none (by rw [List.length_zipWith]; omega),
          List.getElem?_eq_none (by rw [List.length_zipWith]; omega)]

theorem BuildRides_fails_iff_witness :
    BuildRides [sampleInbound, sampleInbound] [sampleOutbound] = .error ⟨1, 1⟩ ∧
    ∃ rides, BuildRides [sampleInbound] [sampleOutbound, sampleInbound] = .ok rides ∧
      rides.length = 1 ∧ BuildRides [sampleInbound] [sampleOutbound] = .ok rides := by
  have h1 := (BuildRides_fails_iff [sampleInbound, sampleInbound] [sampleOutbound]).2.1
    (by decide)
  obtain ⟨rides, g1, g2, _, g4⟩ :=
    (BuildRides_fails_iff [sampleInbound] [sampleOutbound, sampleInbound]).2.2 (by decide)
  exact ⟨h1, rides, g1, g2, g4⟩

/-! ## Price merger: when the step returns -/

/-- With more prices than rides the merging step panics at index
len(rides). -/
theorem PriceRides.merge_panics_of_gt (rides : List (Ride Loc)) (prices : List F64)
    (h : rides.length < prices.length) :
    ∃ out, PriceRides.merge rides prices = .panicked ⟨rides.length, rides.length⟩ out := by
  cases hl : prices.getLast? with
  | none =>
    rw [List.getLast?_eq_none_iff] at hl
    rw [hl] at h
    simp only [List.length_nil] at h
    omega
  | some baseline =>
    obtain ⟨out, hout⟩ := PriceRides.loop_panics baseline prices 0 rides (by omega) (by omega)
    exact ⟨out, by rw [PriceRides.merge_eq_loop rides prices baseline hl, hout]⟩

/-- The merging step returns only on a non-empty list of prices that is no
longer than the list of rides. -/
theorem PriceRides.merge_returned_length (rides : List (Ride Loc)) (prices : List F64)
    (out : List (Ride Loc)) (h : PriceRides.merge rides prices = .returned out) :
    1 ≤ prices.length ∧ prices.length ≤ rides.length := by
  constructor
  · cases prices with
    | nil => rw [PriceRides.merge_nil] at h; cases h
    | cons p ps => simp only [List.length_cons]; omega
  · rcases Nat.lt_or_ge rides.length prices.length with hlt | hge
    · obtain ⟨out1, h1⟩ := PriceRides.merge_panics_of_gt rides prices hlt
      rw [h1] at h
      cases h
    · exact hge

/-- A non-empty list has a last element. -/
theorem getLast?_of_length_pos (prices : List F64) (h : 1 ≤ prices.length) :
    ∃ baseline, prices.getLast? = some baseline := by
  cases hl : prices.getLast? with
  | none =>
    rw [List.getLast?_eq_none_iff] at hl
    rw [hl] at h
    simp only [List.length_nil] at h
    omega
  | some baseline => exact ⟨baseline, rfl⟩

/-- C12 fails as stated: with 3 rides of Price 0 and the prices [10, 20, 40]
the step returns and ride 2 has Price 40, written from the last element of
prices, the baseline. -/
theorem PriceRides.merge_writes_baseline_price :
    PriceRides.merge [sampleRide, sampleRide, sampleRide] [10, 20, 40] =
      .returned [reprice 40 sampleRide 10, reprice 40 sampleRide 20, reprice 40 sampleRide 40] ∧
    ([10, 20, 40] : List F64)[([10, 20, 40] : List F64).length - 1]? = some 40 ∧
    sampleRide.Price = 0 ∧ (reprice 40 sampleRide 40).Price = 40 :=
  ⟨rfl, rfl, rfl, rfl⟩

/-- C12, as the code has it: when the step returns, every element of prices,
the last one included, is written to the Price of the ride at its own index:
ride i has Price = prices[i] and Savings = 100 * (baseline - prices[i]) /
baseline for every i < len(prices), so ride len(prices)-1 has the baseline as
its Price; the rides from index len(prices) on are not written. -/
theorem PriceRides.merge_price_at_index (rides : List (Ride Loc)) (prices : List F64)
    (baseline : F64) (out : List (Ride Loc)) (hlast : prices.getLast? = some baseline)
    (h : PriceRides.merge rides prices = .returned out) :
    (∀ (i : Nat) (hi : i < prices.length), ∃ r, out[i]? = some r ∧ r.Price = prices[i] ∧
      r.Savings = 100 * (baseline - prices[i]) / baseline) ∧
    (∃ r, out[prices.length - 1]? = some r ∧ r.Price = baseline) ∧
    (∀ (i : Nat), prices.length ≤ i → out[i]? = rides[i]?) := by
  obtain ⟨hpos, hlen⟩ := PriceRides.merge_returned_length rides prices out h
  obtain ⟨out1, h1, _, h3, h4⟩ := PriceRides.merge_returns rides prices baseline hlast hlen
  rw [h] at h1
  cases h1
  have hidx : prices[prices.length - 1]? = some baseline := by
    rw [← hlast, List.getLast?_eq_getElem?]
  refine ⟨?_, ?_, h4⟩
  · intro i hi
    have hr : i < rides.length := by omega
    exact ⟨_, h3 i rides[i] prices[i] (List.getElem?_eq_getElem hr)
      (List.getElem?_eq_getElem hi), rfl, rfl⟩
  · have hr : prices.length - 1 < rides.length := by omega
    exact ⟨_, h3 (prices.length - 1) rides[prices.length - 1] baseline
      (List.getElem?_eq_getElem hr) hidx, rfl⟩

theorem PriceRides.merge_price_at_index_witness :
    (∃ r, [reprice 40 sampleRide 10, reprice 40 sampleRide 40][0]? = some r ∧ r.Price = 10) ∧
    (∃ r, [reprice 40 sampleRide 10, reprice 40 sampleRide 40][1]? = some r ∧ r.Price = 40) := by
  have h := PriceRides.merge_price_at_index [sampleRide, sampleRide] [10, 40] 40
    [reprice 40 sampleRide 10, reprice 40 sampleRide 40] rfl rfl
  obtain ⟨r, ha, hb, _⟩ := h.1 0 (by decide)
  exact ⟨⟨r, ha, hb⟩, h.2.1⟩

/-- C15: the merging step returns, with no index out of range, exactly when
1 <= len(prices) <= len(rides); on an empty list of prices it panics at index
-1, and with more prices than rides it panics at index len(rides). -/
theorem PriceRides.merge_returns_iff (rides : List (Ride Loc)) (prices : List F64) :
    ((∃ out, PriceRides.merge rides prices = .returned out) ↔
      1 ≤ prices.length ∧ prices.length ≤ rides.length) ∧
    (prices = [] → PriceRides.merge rides prices = .panicked ⟨-1, 0⟩ rides) ∧
    (rides.length < prices.length →
      ∃ out, PriceRides.merge rides prices = .panicked ⟨rides.length, rides.length⟩ out) := by
  refine ⟨⟨?_, ?_⟩, ?_, PriceRides.merge_panics_of_gt rides prices⟩
  · rintro ⟨out, h⟩
    exact PriceRides.merge_returned_length rides prices out h
  · rintro ⟨hpos, hlen⟩
    obtain ⟨baseline, hlast⟩ := getLast?_of_length_pos prices hpos
    obtain ⟨out, h1, _⟩ := PriceRides.merge_returns rides prices baseline hlast hlen
    exact ⟨out, h1⟩
  · intro h0
    rw [h0]
    exact PriceRides.merge_nil rides

theorem PriceRides.merge_returns_iff_witness :
    (∃ out, PriceRides.merge [sampleRide, sampleRide] [10, 40] = .returned out) ∧
    PriceRides.merge [sampleRide] [] = .panicked ⟨-1, 0⟩ [sampleRide] ∧
    ∃ out, PriceRides.merge [sampleRide, sampleRide] [10, 20, 40] = .panicked ⟨2, 2⟩ out :=
  ⟨(PriceRides.merge_returns_iff [sampleRide, sampleRide] [10, 40]).1.2 (by decide),
    (PriceRides.merge_returns_iff [sampleRide] []).2.1 rfl,
    (PriceRides.merge_returns_iff [sampleRide, sampleRide] [10, 20, 40]).2.2 (by decide)⟩

/-! ## Price merger: repeated merging and the invariant -/

/-- Repricing forgets an earlier repricing. -/
theorem reprice_reprice (b1 b2 p1 p2 : F64) (r : Ride Loc) :
    reprice b2 (reprice b1 r p1) p2 = reprice b2 r p2 := rfl

theorem reprice_totalsOk (b p : F64) (r : Ride Loc) (h : r.totalsOk) :
    (reprice b r p).totalsOk := h

/-- Every ride of the returned list is the input ride at its index, as it
was or repriced. -/
theorem PriceRides.merge_returned_index (rides : List (Ride Loc)) (prices : List F64)
    (out : List (Ride Loc)) (h : PriceRides.merge rides prices = .returned out) :
    ∀ (i : Nat) (r1 : Ride Loc), out[i]? = some r1 →
      ∃ r, rides[i]? = some r ∧ (r1 = r ∨ ∃ b p, r1 = reprice b r p) := by
  obtain ⟨hpos, hlen⟩ := PriceRides.merge_returned_length rides prices out h
  obtain ⟨baseline, hlast⟩ := getLast?_of_length_pos prices hpos
  obtain ⟨out1, h1, h2, h3, h4⟩ := PriceRides.merge_returns rides prices baseline hlast hlen
  rw [h] at h1
  cases h1
  intro i r1 hr1
  have hi : i < rides.length := by
    rcases Nat.lt_or_ge i out.length with hlt | hge
    · omega
    · rw [List.getElem?_eq_none hge] at hr1; cases hr1
  refine ⟨rides[i], List.getElem?_eq_getElem hi, ?_⟩
  rcases Nat.lt_or_ge i prices.length with hp | hp
  · rw [h3 i rides[i] prices[i] (List.getElem?_eq_getElem hi) (List.getElem?_eq_getElem hp)] at hr1
    cases hr1
    exact Or.inr ⟨baseline, prices[i], rfl⟩
  · rw [h4 i hp, List.getElem?_eq_getElem hi] at hr1
    cases hr1
    exact Or.inl rfl

/-- C13: the merging step keeps no history. When merging p1 into the rides
returns, merging a list p2 of the same length into the result returns what
merging p2 into the rides does; merging p1 a second time changes nothing. -/
theorem PriceRides.merge_overwrites (rides : List (Ride Loc)) (p1 p2 : List F64)
    (out1 : List (Ride Loc)) (hlen : p1.length = p2.length)
    (h1 : PriceRides.merge rides p1 = .returned out1) :
    (∃ out2, PriceRides.merge out1 p2 = .returned out2 ∧
      PriceRides.merge rides p2 = .returned out2) ∧
    PriceRides.merge out1 p1 = .returned out1 := by
  obtain ⟨hpos, hle⟩ := PriceRides.merge_returned_length rides p1 out1 h1
  obtain ⟨b1, hb1⟩ := getLast?_of_length_pos p1 hpos
  obtain ⟨o1, g1, gl1, ga1, gb1⟩ := PriceRides.merge_returns rides p1 b1 hb1 hle
  rw [h1] at g1
  cases g1
  have key : ∀ (q : List F64) (b : F64), q.length = p1.length → q.getLast? = some b →
      ∃ out2, PriceRides.merge out1 q = .returned out2 ∧
        PriceRides.merge rides q = .returned out2 := by
    intro q b hq hb
    obtain ⟨o2, g2, gl2, ga2, gb2⟩ := PriceRides.merge_returns out1 q b hb (by omega)
    obtain ⟨o3, g3, gl3, ga3, gb3⟩ := PriceRides.merge_returns rides q b hb (by omega)
    refine ⟨o2, g2, ?_⟩
    rw [g3]
    congr 1
    apply List.ext_getElem?
    intro i
    rcases Nat.lt_or_ge i q.length with hi | hi
    · have hr : i < rides.length := by omega
      have hp : i < p1.length := by omega
      have e1 := ga1 i rides[i] p1[i] (List.getElem?_eq_getElem hr) (List.getElem?_eq_getElem hp)
      rw [ga3 i rides[i] q[i] (List.getElem?_eq_getElem hr) (List.getElem?_eq_getElem hi),
        ga2 i _ q[i] e1 (List.getElem?_eq_getElem hi), reprice_reprice]
    · rw [gb3 i hi, gb2 i hi, gb1 i (by omega)]
  constructor
  · obtain ⟨b2, hb2⟩ := getLast?_of_length_pos p2 (by omega)
    exact key p2 b2 hlen.symm hb2
  · obtain ⟨out2, k1, k2⟩ := key p1 b1 rfl hb1
    rw [h1] at k2
    cases k2
    exact k1

theorem PriceRides.merge_overwrites_witness :
    PriceRides.merge [reprice 40 sampleRide 10, reprice 40 sampleRide 40] [5, 20] =
      .returned [reprice 20 sampleRide 5, reprice 20 sampleRide 20] ∧
    PriceRides.merge [sampleRide, sampleRide] [5, 20] =
      .returned [reprice 20 sampleRide 5, reprice 20 sampleRide 20] ∧
    PriceRides.merge [reprice 40 sampleRide 10, reprice 40 sampleRide 40] [10, 40] =
      .returned [reprice 40 sampleRide 10, reprice 40 sampleRide 40] := by
  have h := PriceRides.merge_overwrites [sampleRide, sampleRide] [10, 40] [5, 20]
    [reprice 40 sampleRide 10, reprice 40 sampleRide 40] rfl rfl
  obtain ⟨out2, k1, k2⟩ := h.1
  have e : PriceRides.merge [sampleRide, sampleRide] [5, 20] =
      .returned [reprice 20 sampleRide 5, reprice 20 sampleRide 20] := rfl
  rw [e] at k2
  cases k2
  exact ⟨k1, e, h.2⟩

/-- C14: the totals of a ride are the sums of its two legs for every ride
that BuildRide builds and every ride of a list that BuildRides returns, and
the merging step preserves it: when every input ride satisfies it and the
step returns, every returned ride satisfies it. -/
theorem Ride.totalsOk_invariant :
    (∀ inbound outbound : RouteSummary Loc, (BuildRide inbound outbound).totalsOk) ∧
    (∀ (inbounds outbounds : List (RouteSummary Loc)) (rides : List (Ride Loc)),
      BuildRides inbounds outbounds = .ok rides → ∀ r ∈ rides, r.totalsOk) ∧
    (∀ (rides : List (Ride Loc)) (prices : List F64) (out : List (Ride Loc)),
      (∀ r ∈ rides, r.totalsOk) → PriceRides.merge rides prices = .returned out →
      ∀ r ∈ out, r.totalsOk) := by
  refine ⟨fun _ _ => ⟨rfl, rfl⟩, ?_, ?_⟩
  · intro inbounds outbounds rides h r hr
    rcases Nat.lt_or_ge outbounds.length inbounds.length with hlt | hge
    · rw [BuildRides_of_gt inbounds outbounds hlt] at h
      cases h
    · rw [BuildRides_of_le inbounds outbounds hge] at h
      cases h
      obtain ⟨i, hi, e⟩ := List.getElem_of_mem hr
      rw [List.getElem_zipWith] at e
      rw [← e]
      exact ⟨rfl, rfl⟩
  · intro rides prices out hinv h r hr
    obtain ⟨i, hi, e⟩ := List.getElem_of_mem hr
    obtain ⟨r0, h0, hcase⟩ := PriceRides.merge_returned_index rides prices out h i r
      (by rw [List.getElem?_eq_getElem hi, e])
    have hr0 : r0.totalsOk := hinv r0 (List.getElem?_mem h0)
    rcases hcase with rfl | ⟨b, p, rfl⟩
    · exact hr0
    · exact reprice_totalsOk b p r0 hr0

theorem Ride.totalsOk_invariant_witness :
    sampleRide.totalsOk ∧ (reprice 40 sampleRide 10).totalsOk := by
  have h := @Ride.totalsOk_invariant Nat
  have h0 : sampleRide.totalsOk := h.1 sampleInbound sampleOutbound
  have hb := h.2.1 [sampleInbound] [sampleOutbound] [sampleRide] rfl sampleRide
    (List.mem_singleton.mpr rfl)
  have hm := h.2.2 [sampleRide, sampleRide] [10, 40]
    [reprice 40 sampleRide 10, reprice 40 sampleRide 40]
    (fun r hr => by
      simp only [List.mem_cons, List.mem_singleton, List.not_mem_nil, or_false, or_self] at hr
      rw [hr]; exact hb) rfl
    (reprice 40 sampleRide 10) (List.mem_cons_self _ _)
  exact ⟨h0, hm⟩

/-! ## float64 rounding: the nearest integer -/

theorem roundNearestEven_near (x : ℚ) :
    ((roundNearestEven x : ℤ) : ℚ) - x ≤ 1 / 2 ∧ x - (roundNearestEven x : ℚ) ≤ 1 / 2 := by
  have h1 := Int.floor_le x
  have h2 := Int.lt_floor_add_one x
  unfold roundNearestEven
  split_ifs <;> push_cast <;> constructor <;> linarith

theorem roundNearestEven_intCast (n : ℤ) : roundNearestEven (n : ℚ) = n := by
  unfold roundNearestEven
  simp

/-- An integer less than half away from a rational is its rounding. -/
theorem roundNearestEven_eq_of_near (x : ℚ) (m : ℤ) (h1 : (m : ℚ) - x < 1 / 2)
    (h2 : x - (m : ℚ) < 1 / 2) : roundNearestEven x = m := by
  obtain ⟨g1, g2⟩ := roundNearestEven_near x
  have a1 : ((roundNearestEven x - m : ℤ) : ℚ) < 1 := by push_cast; linarith
  have a2 : (-1 : ℚ) < ((roundNearestEven x - m : ℤ) : ℚ) := by push_cast; linarith
  have b1 : roundNearestEven x - m < 1 := by exact_mod_cast a1
  have b2 : -1 < roundNearestEven x - m := by exact_mod_cast a2
  omega

theorem roundNearestEven_mono (x y : ℚ) (h : x ≤ y) :
    roundNearestEven x ≤ roundNearestEven y := by
  by_contra hlt
  have hlt1 : roundNearestEven y + 1 ≤ roundNearestEven x := by omega
  have hq : ((roundNearestEven y : ℤ) : ℚ) + 1 ≤ (roundNearestEven x : ℚ) := by
    exact_mod_cast hlt1
  obtain ⟨g1, _⟩ := roundNearestEven_near x
  obtain ⟨_, k2⟩ := roundNearestEven_near y
  have e : x = y := by linarith
  rw [e] at hlt
  exact hlt (le_refl _)

theorem roundNearestEven_nonneg (x : ℚ) (h : 0 ≤ x) : 0 ≤ roundNearestEven x := by
  have := roundNearestEven_mono 0 x h
  have h0 : roundNearestEven (0 : ℚ) = 0 := by
    have := roundNearestEven_intCast 0
    simpa using this
  omega

/-! ## float64 rounding: the nearest float64 value -/

theorem two_zpow_pos (k : ℤ) : (0 : ℚ) < 2 ^ k := zpow_pos (by norm_num) k

theorem two_zpow_le (j k : ℤ) (h : j ≤ k) : (2 : ℚ) ^ j ≤ 2 ^ k :=
  zpow_le_zpow_right₀ (by norm_num) h

theorem nearest64_zero : nearest64 0 = 0 := by
  unfold nearest64
  rw [zero_div]
  have h0 : roundNearestEven (0 : ℚ) = 0 := by
    have := roundNearestEven_intCast 0
    simpa using this
  rw [h0]
  simp

theorem nearest64_nonneg (a : ℚ) (h : 0 ≤ a) : 0 ≤ nearest64 a := by
  unfold nearest64
  have hu := two_zpow_pos (ulpExponent a)
  have hr : 0 ≤ roundNearestEven (a / 2 ^ ulpExponent a) :=
    roundNearestEven_nonneg _ (div_nonneg h hu.le)
  have hq : (0 : ℚ) ≤ (roundNearestEven (a / 2 ^ ulpExponent a) : ℚ) := by exact_mod_cast hr
  exact mul_nonneg hq hu.le

/-- A positive magnitude lies below the top of its binade. -/
theorem lt_two_zpow_ulpExponent (a : ℚ) : a < 2 ^ (ulpExponent a + 53) := by
  have h1 : a < ((2 : ℕ) : ℚ) ^ (Int.log 2 a + 1) := Int.lt_zpow_succ_log_self (by norm_num) a
  have h2 : ((2 : ℕ) : ℚ) ^ (Int.log 2 a + 1) ≤ 2 ^ (ulpExponent a + 53) := by
    have := two_zpow_le (Int.log 2 a + 1) (ulpExponent a + 53) (by unfold ulpExponent; omega)
    exact_mod_cast this
  linarith

/-- Outside the subnormal range a magnitude lies above the bottom of its
binade. -/
theorem two_zpow_ulpExponent_le (a : ℚ) (ha : 0 < a) (h : -1022 < ulpExponent a + 52) :
    (2 : ℚ) ^ (ulpExponent a + 52) ≤ a := by
  have e : ulpExponent a + 52 = Int.log 2 a := by
    unfold ulpExponent at h ⊢
    omega
  rw [e]
  have := Int.zpow_log_le_self (b := 2) (r := a) (by norm_num) ha
  exact_mod_cast this

theorem ulpExponent_mono (a b : ℚ) (ha : 0 < a) (h : a ≤ b) : ulpExponent a ≤ ulpExponent b := by
  have := Int.log_mono_right (b := 2) ha h
  unfold ulpExponent
  omega

theorem nearest64_le_top (a : ℚ) : nearest64 a ≤ 2 ^ (ulpExponent a + 53) := by
  have hu := two_zpow_pos (ulpExponent a)
  have h1 : a / 2 ^ ulpExponent a ≤ ((2 ^ 53 : ℤ) : ℚ) := by
    rw [div_le_iff₀ hu]
    have h2 := lt_two_zpow_ulpExponent a
    have h3 : (2 : ℚ) ^ (ulpExponent a + 53) = ((2 ^ 53 : ℤ) : ℚ) * 2 ^ ulpExponent a := by
      rw [zpow_add₀ (by norm_num), mul_comm]
      norm_num
    linarith
  have h4 := roundNearestEven_mono _ _ h1
  rw [roundNearestEven_intCast] at h4
  have h5 : ((roundNearestEven (a / 2 ^ ulpExponent a) : ℤ) : ℚ) ≤ ((2 ^ 53 : ℤ) : ℚ) := by
    exact_mod_cast h4
  unfold nearest64
  have h6 : (2 : ℚ) ^ (ulpExponent a + 53) = ((2 ^ 53 : ℤ) : ℚ) * 2 ^ ulpExponent a := by
    rw [zpow_add₀ (by norm_num), mul_comm]
    norm_num
  rw [h6]
  exact mul_le_mul_of_nonneg_right h5 hu.le

theorem le_nearest64_of_two_zpow_le (a : ℚ) (h : (2 : ℚ) ^ (ulpExponent a + 52) ≤ a) :
    (2 : ℚ) ^ (ulpExponent a + 52) ≤ nearest64 a := by
  have hu := two_zpow_pos (ulpExponent a)
  have h3 : (2 : ℚ) ^ (ulpExponent a + 52) = ((2 ^ 52 : ℤ) : ℚ) * 2 ^ ulpExponent a := by
    rw [zpow_add₀ (by norm_num), mul_comm]
    norm_num
  have h1 : ((2 ^ 52 : ℤ) : ℚ) ≤ a / 2 ^ ulpExponent a := by
    rw [le_div_iff₀ hu]
    linarith
  have h4 := roundNearestEven_mono _ _ h1
  rw [roundNearestEven_intCast] at h4
  have h5 : ((2 ^ 52 : ℤ) : ℚ) ≤ ((roundNearestEven (a / 2 ^ ulpExponent a) : ℤ) : ℚ) := by
    exact_mod_cast h4
  unfold nearest64
  rw [h3]
  exact mul_le_mul_of_nonneg_right h5 hu.le

/-- Rounding to the nearest float64 value is monotone. -/
theorem nearest64_mono (a b : ℚ) (ha : 0 ≤ a) (h : a ≤ b) : nearest64 a ≤ nearest64 b := by
  rcases eq_or_lt_of_le ha with h0 | hpos
  · rw [← h0, nearest64_zero]
    exact nearest64_nonneg b (by linarith)
  · have hk := ulpExponent_mono a b hpos h
    rcases eq_or_lt_of_le hk with heq | hlt
    · unfold nearest64
      rw [heq]
      have hu := two_zpow_pos (ulpExponent b)
      have h1 : a / 2 ^ ulpExponent b ≤ b / 2 ^ ulpExponent b :=
        div_le_div_of_nonneg_right h hu.le
      have h2 := roundNearestEven_mono _ _ h1
      have h3 : ((roundNearestEven (a / 2 ^ ulpExponent b) : ℤ) : ℚ) ≤
          (roundNearestEven (b / 2 ^ ulpExponent b) : ℚ) := by exact_mod_cast h2
      exact mul_le_mul_of_nonneg_right h3 hu.le
    · have hb : -1022 < ulpExponent b + 52 := by
        have : -1074 ≤ ulpExponent a := by unfold ulpExponent; omega
        omega
      have h1 := nearest64_le_top a
      have h2 := le_nearest64_of_two_zpow_le b
        (two_zpow_ulpExponent_le b (by linarith) hb)
      have h3 := two_zpow_le (ulpExponent a + 53) (ulpExponent b + 52) (by omega)
      linarith

/-! ## float64 rounding: evaluation and order -/

theorem ulpExponent_eq (a : ℚ) (e : ℤ) (ha : 0 < a) (h1 : (2 : ℚ) ^ e ≤ a)
    (h2 : a < 2 ^ (e + 1)) (he : -1022 ≤ e) : ulpExponent a = e - 52 := by
  have g1 : e ≤ Int.log 2 a := by
    rw [← Int.zpow_le_iff_le_log (by norm_num) ha]
    exact_mod_cast h1
  have g2 : Int.log 2 a < e + 1 := by
    rw [← Int.lt_zpow_iff_log_lt (by norm_num) ha]
    exact_mod_cast h2
  unfold ulpExponent
  omega

theorem ulpExponent_subnormal (a : ℚ) (ha : 0 < a) (h : a < 2 ^ (-1022 : ℤ)) :
    ulpExponent a = -1074 := by
  have g2 : Int.log 2 a < -1022 := by
    rw [← Int.lt_zpow_iff_log_lt (by norm_num) ha]
    exact_mod_cast h
  unfold ulpExponent
  omega

theorem nearest64_eq (a : ℚ) (k m : ℤ) (hk : ulpExponent a = k)
    (h1 : (m : ℚ) - a / 2 ^ k < 1 / 2) (h2 : a / 2 ^ k - (m : ℚ) < 1 / 2) :
    nearest64 a = (m : ℚ) * 2 ^ k := by
  unfold nearest64
  rw [hk, roundNearestEven_eq_of_near _ m h1 h2]

/-- The rounding of a positive rational in the normal range, from the integer
nearest to it in units of the last place. -/
theorem round64_eq (q : ℚ) (e m : ℤ) (hq : 0 < q) (h1 : (2 : ℚ) ^ e ≤ q)
    (h2 : q < 2 ^ (e + 1)) (he : -1022 ≤ e)
    (g1 : (m : ℚ) - q / 2 ^ (e - 52) < 1 / 2) (g2 : q / 2 ^ (e - 52) - (m : ℚ) < 1 / 2)
    (hfin : (m : ℚ) * 2 ^ (e - 52) < 2 ^ (1024 : ℕ)) :
    round64 q = .fin ((m : ℚ) * 2 ^ (e - 52)) := by
  have hn := nearest64_eq q (e - 52) m (ulpExponent_eq q e hq h1 h2 he) g1 g2
  unfold round64
  rw [if_pos hq.le, hn, if_neg (not_le.mpr hfin)]

theorem round64_zero : round64 0 = .fin 0 := by
  unfold round64
  rw [if_pos (le_refl _), nearest64_zero, if_neg (by norm_num)]

theorem round64_nonnegOrInf (q : ℚ) (hq : 0 ≤ q) : (round64 q).nonnegOrInf := by
  unfold round64
  rw [if_pos hq]
  split_ifs
  · exact True.intro
  · exact nearest64_nonneg q hq

theorem round64_le (q r : ℚ) (hq : 0 ≤ q) (h : q ≤ r) : F64.le (round64 q) (round64 r) := by
  have hm := nearest64_mono q r hq h
  unfold round64
  rw [if_pos hq, if_pos (le_trans hq h)]
  split_ifs with c1 c2
  · exact True.intro
  · exact absurd (le_trans c1 hm) c2
  · exact True.intro
  · exact hm

theorem F64.rnd_fin (q : ℚ) : F64.rnd (.fin q) = round64 q := rfl

theorem F64.posInf_div_fin (b : ℚ) (hb : 0 ≤ b) : F64.posInf / .fin b = .posInf := by
  show (if 0 ≤ b then F64.posInf else F64.negInf) = .posInf
  rw [if_pos hb]

theorem F64.hundred_mul_fin (a : ℚ) : (100 : F64) * .fin a = .fin (100 * a) := by
  rw [F64.ofNat_eq_fin, F64.fin_mul]
  norm_num

theorem F64.hundred_mul_posInf : (100 : F64) * .posInf = .posInf := by
  show F64.infOfSign ((100 : ℕ) : ℚ) = .posInf
  unfold F64.infOfSign
  norm_num

/-- The multiplication and the division of the Savings expression, applied to
the rounded difference. -/
theorem savings64_eq (b p : ℚ) :
    savings64 (.fin b) (.fin p) =
      F64.rnd (F64.rnd (100 * round64 (b - p)) / .fin b) := by
  unfold savings64
  rw [F64.fin_sub]
  rfl

theorem F64.le_posInf_of_nonnegOrInf (z : F64) (hz : z.nonnegOrInf) : F64.le z .posInf := by
  cases z with
  | fin a => exact True.intro
  | posInf => exact True.intro
  | negInf => exact absurd hz id
  | nan => exact absurd hz id

/-- A rounded operation that scales finite values monotonically and keeps
+Inf is monotone on the values that are not negative. -/
theorem rnd_scale_mono (f : F64 → F64) (c : ℚ → ℚ) (hf : ∀ a, f (.fin a) = .fin (c a))
    (hinf : f .posInf = .posInf) (hc0 : ∀ a, 0 ≤ a → 0 ≤ c a)
    (hcm : ∀ a a1, 0 ≤ a → a ≤ a1 → c a ≤ c a1) (x y : F64) (hx : x.nonnegOrInf)
    (hy : y.nonnegOrInf) (h : F64.le x y) :
    F64.le (F64.rnd (f x)) (F64.rnd (f y)) ∧ (F64.rnd (f x)).nonnegOrInf ∧
      (F64.rnd (f y)).nonnegOrInf := by
  have hn : ∀ z : F64, z.nonnegOrInf → (F64.rnd (f z)).nonnegOrInf := by
    intro z hz
    cases z with
    | fin a => rw [hf]; exact round64_nonnegOrInf (c a) (hc0 a hz)
    | posInf => rw [hinf]; exact True.intro
    | negInf => exact absurd hz id
    | nan => exact absurd hz id
  refine ⟨?_, hn x hx, hn y hy⟩
  cases y with
  | posInf =>
    have := F64.le_posInf_of_nonnegOrInf _ (hn x hx)
    rw [hinf]
    exact this
  | fin a1 =>
    cases x with
    | fin a =>
      rw [hf, hf]
      exact round64_le (c a) (c a1) (hc0 a hx) (hcm a a1 hx h)
    | posInf => exact absurd h id
    | negInf => exact absurd hx id
    | nan => exact absurd hx id
  | negInf => exact absurd hy id
  | nan => exact absurd hy id

theorem savings64_tail (b : ℚ) (hb : 0 < b) (x y : F64) (hx : x.nonnegOrInf)
    (hy : y.nonnegOrInf) (h : F64.le x y) :
    F64.le (F64.rnd (F64.rnd (100 * x) / .fin b)) (F64.rnd (F64.rnd (100 * y) / .fin b)) ∧
    (F64.rnd (F64.rnd (100 * x) / .fin b)).nonnegOrInf := by
  have hb0 : b ≠ 0 := ne_of_gt hb
  obtain ⟨s1, s2, s3⟩ := rnd_scale_mono (fun z => 100 * z) (fun a => 100 * a)
    F64.hundred_mul_fin F64.hundred_mul_posInf
    (fun a ha => mul_nonneg (by norm_num) ha)
    (fun a a1 _ h1 => mul_le_mul_of_nonneg_left h1 (by norm_num)) x y hx hy h
  obtain ⟨t1, t2, _⟩ := rnd_scale_mono (fun z => z / .fin b) (fun a => a / b)
    (fun a => by
      show F64.fin a / F64.fin b = .fin (a / b)
      rw [F64.fin_div, if_neg hb0])
    (by
      show (if 0 ≤ b then F64.posInf else F64.negInf) = .posInf
      rw [if_pos hb.le])
    (fun a ha => div_nonneg ha hb.le)
    (fun a a1 _ h1 => div_le_div_of_nonneg_right h1 hb.le) _ _ s2 s3 s1
  exact ⟨t1, t2⟩

/-- The properties of the Savings that float64 keeps: for a baseline b > 0
and a price p <= b the value is never NaN and never negative, it is 0 at
p = b, and it does not increase with the price. -/
theorem savings64_props (p b : ℚ) (hb : 0 < b) (hpb : p ≤ b) :
    (savings64 (.fin b) (.fin p)).nonnegOrInf ∧
    (p = b → savings64 (.fin b) (.fin p) = .fin 0) ∧
    ∀ p2 : ℚ, p ≤ p2 → p2 ≤ b →
      F64.le (savings64 (.fin b) (.fin p2)) (savings64 (.fin b) (.fin p)) := by
  have hb0 : b ≠ 0 := ne_of_gt hb
  have hd : 0 ≤ b - p := by linarith
  have hx := round64_nonnegOrInf (b - p) hd
  refine ⟨?_, ?_, ?_⟩
  · rw [savings64_eq]
    exact (savings64_tail b hb _ .posInf hx True.intro
      (F64.le_posInf_of_nonnegOrInf _ hx)).2
  · intro e
    rw [savings64_eq, e, sub_self, round64_zero, F64.hundred_mul_fin, mul_zero]
    show F64.rnd (round64 0 / F64.fin b) = .fin 0
    rw [round64_zero, F64.fin_div, if_neg hb0, zero_div]
    exact round64_zero
  · intro p2 h1 h2
    rw [savings64_eq, savings64_eq]
    have hd2 : 0 ≤ b - p2 := by linarith
    exact (savings64_tail b hb _ _ (round64_nonnegOrInf (b - p2) hd2) hx
      (round64_le (b - p2) (b - p) hd2 (by linarith))).1

/-! ## float64 rounding: the grid and the error of one rounding -/

theorem ulpExponent_ge (a : ℚ) : -1074 ≤ ulpExponent a := by
  unfold ulpExponent
  omega

/-- An integer number of units in the last place is left as it is. -/
theorem nearest64_of_int (a : ℚ) (n : ℤ) (h : a = (n : ℚ) * 2 ^ ulpExponent a) :
    nearest64 a = a := by
  have hu := two_zpow_pos (ulpExponent a)
  have e : a / 2 ^ ulpExponent a = (n : ℚ) := by
    rw [div_eq_iff (ne_of_gt hu)]
    exact h
  unfold nearest64
  rw [e, roundNearestEven_intCast]
  exact h.symm

theorem nearest64_near (a : ℚ) :
    nearest64 a - a ≤ 2 ^ ulpExponent a / 2 ∧ a - nearest64 a ≤ 2 ^ ulpExponent a / 2 := by
  have hu := two_zpow_pos (ulpExponent a)
  obtain ⟨h1, h2⟩ := roundNearestEven_near (a / 2 ^ ulpExponent a)
  have e : a = a / 2 ^ ulpExponent a * 2 ^ ulpExponent a := by
    rw [div_mul_cancel₀ _ (ne_of_gt hu)]
  unfold nearest64
  constructor
  · have := mul_le_mul_of_nonneg_right h1 hu.le
    nlinarith
  · have := mul_le_mul_of_nonneg_right h2 hu.le
    nlinarith

/-- Every rounded value is a whole number of steps of 2 ^ -1074. -/
theorem nearest64_grid (a : ℚ) : ∃ n : ℤ, nearest64 a = (n : ℚ) * 2 ^ (-1074 : ℤ) := by
  have hk := ulpExponent_ge a
  have e1 : ulpExponent a = ((ulpExponent a + 1074).toNat : ℤ) + (-1074) := by
    rw [Int.toNat_of_nonneg (by omega)]
    omega
  refine ⟨roundNearestEven (a / 2 ^ ulpExponent a) * 2 ^ (ulpExponent a + 1074).toNat, ?_⟩
  unfold nearest64
  push_cast
  rw [mul_assoc]
  congr 1
  conv_lhs => rw [e1]
  rw [zpow_add₀ (by norm_num), zpow_natCast]

/-- A whole number of steps of 2 ^ -1074 is rounded with a relative error of
at most 2 ^ -53. -/
theorem nearest64_rel (a : ℚ) (ha : 0 < a) (n : ℤ) (hn : a = (n : ℚ) * 2 ^ (-1074 : ℤ)) :
    a * (1 - 1 / 2 ^ (53 : ℕ)) ≤ nearest64 a ∧ nearest64 a ≤ a * (1 + 1 / 2 ^ (53 : ℕ)) := by
  rcases Int.lt_or_le (-1022) (ulpExponent a + 52) with hnorm | hsub
  · have h1 := two_zpow_ulpExponent_le a ha hnorm
    obtain ⟨g1, g2⟩ := nearest64_near a
    have e : (2 : ℚ) ^ (ulpExponent a + 52) = 2 ^ ulpExponent a * 2 ^ (52 : ℕ) := by
      rw [zpow_add₀ (by norm_num)]
      norm_num
    rw [e] at h1
    have hu := two_zpow_pos (ulpExponent a)
    constructor
    · have : (2 : ℚ) ^ ulpExponent a / 2 ≤ a * (1 / 2 ^ (53 : ℕ)) := by
        have : (2 : ℚ) ^ ulpExponent a / 2 = 2 ^ ulpExponent a * 2 ^ (52 : ℕ) * (1 / 2 ^ (53 : ℕ)) := by
          norm_num
          ring
        rw [this]
        exact mul_le_mul_of_nonneg_right h1 (by norm_num)
      linarith
    · have : (2 : ℚ) ^ ulpExponent a / 2 ≤ a * (1 / 2 ^ (53 : ℕ)) := by
        have : (2 : ℚ) ^ ulpExponent a / 2 = 2 ^ ulpExponent a * 2 ^ (52 : ℕ) * (1 / 2 ^ (53 : ℕ)) := by
          norm_num
          ring
        rw [this]
        exact mul_le_mul_of_nonneg_right h1 (by norm_num)
      linarith
  · have hk : ulpExponent a = -1074 := by
      have := ulpExponent_ge a
      omega
    have hx := nearest64_of_int a n (by rw [hk]; exact hn)
    rw [hx]
    constructor
    · have : 0 ≤ a * (1 / 2 ^ (53 : ℕ)) := mul_nonneg ha.le (by norm_num)
      linarith
    · have : 0 ≤ a * (1 / 2 ^ (53 : ℕ)) := mul_nonneg ha.le (by norm_num)
      linarith

/-- A float64 value that is not negative is its own rounding and lies below
2 ^ 1024. -/
theorem isDouble_nearest64 (b : ℚ) (hb : 0 ≤ b) (h : isDouble b) :
    nearest64 b = b ∧ b < 2 ^ (1024 : ℕ) := by
  unfold isDouble round64 at h
  rw [if_pos hb] at h
  split_ifs at h with c
  · have e : nearest64 b = b := by injection h
    rw [e] at c
    exact ⟨e, not_le.mp c⟩

/-! ## float64 Savings: range -/

/-- The three roundings of the Savings expression, for a float64 baseline:
the difference cannot overflow, the product can. -/
theorem savings64_unfold (p b : ℚ) (hb : 0 < b) (hp0 : 0 ≤ p) (hpb : p ≤ b)
    (hbd : isDouble b) :
    savings64 (.fin b) (.fin p) =
      if (2 : ℚ) ^ (1024 : ℕ) ≤ nearest64 (100 * nearest64 (b - p)) then .posInf
      else round64 (nearest64 (100 * nearest64 (b - p)) / b) := by
  obtain ⟨hb1, hb2⟩ := isDouble_nearest64 b hb.le hbd
  have hd : 0 ≤ b - p := by linarith
  have hx1 : nearest64 (b - p) ≤ b := by
    have := nearest64_mono (b - p) b hd (by linarith)
    rw [hb1] at this
    exact this
  have hx0 := nearest64_nonneg (b - p) hd
  have e1 : round64 (b - p) = .fin (nearest64 (b - p)) := by
    unfold round64
    rw [if_pos hd, if_neg (not_le.mpr (lt_of_le_of_lt hx1 hb2))]
  rw [savings64_eq, e1, F64.hundred_mul_fin, F64.rnd_fin]
  have h100 : (0 : ℚ) ≤ 100 * nearest64 (b - p) := mul_nonneg (by norm_num) hx0
  by_cases c : (2 : ℚ) ^ (1024 : ℕ) ≤ nearest64 (100 * nearest64 (b - p))
  · have e2 : round64 (100 * nearest64 (b - p)) = .posInf := by
      unfold round64
      rw [if_pos h100, if_pos c]
    rw [e2, F64.posInf_div_fin b hb.le, if_pos c]
    rfl
  · have e2 : round64 (100 * nearest64 (b - p)) =
        .fin (nearest64 (100 * nearest64 (b - p))) := by
      unfold round64
      rw [if_pos h100, if_neg c]
    rw [e2, F64.fin_div, if_neg (ne_of_gt hb), F64.rnd_fin, if_neg c]

theorem nearest64_hundred_up :
    nearest64 (100 * (1 + 1 / 2 ^ (53 : ℕ))) = 100 + 1 / 2 ^ (46 : ℕ) := by
  rw [nearest64_eq _ (6 - 52) 7036874417766401
    (ulpExponent_eq _ 6 (by norm_num) (by norm_num) (by norm_num) (by norm_num))
    (by norm_num) (by norm_num)]
  norm_num

theorem nearest64_hundred_down :
    nearest64 (100 * (1 - 1 / 2 ^ (53 : ℕ))) = 100 - 1 / 2 ^ (46 : ℕ) := by
  rw [nearest64_eq _ (6 - 52) 7036874417766399
    (ulpExponent_eq _ 6 (by norm_num) (by norm_num) (by norm_num) (by norm_num))
    (by norm_num) (by norm_num)]
  norm_num

/-- The rounded product of 100 and a rounded value has a relative error of at
most 2 ^ -53. -/
theorem nearest64_hundred_mul_rel (a : ℚ) (ha : 0 ≤ a) :
    100 * nearest64 a * (1 - 1 / 2 ^ (53 : ℕ)) ≤ nearest64 (100 * nearest64 a) ∧
    nearest64 (100 * nearest64 a) ≤ 100 * nearest64 a * (1 + 1 / 2 ^ (53 : ℕ)) := by
  have h0 := nearest64_nonneg a ha
  rcases eq_or_lt_of_le h0 with hz | hpos
  · rw [← hz, mul_zero, nearest64_zero]
    norm_num
  · obtain ⟨n, hn⟩ := nearest64_grid a
    exact nearest64_rel (100 * nearest64 a) (by linarith) (100 * n) (by
      rw [hn]
      push_cast
      ring)

/-- The float64 Savings is +Inf or a finite value in [0, 100 + 2 ^ -46]. -/
theorem savings64_le (p b : ℚ) (hb : 0 < b) (hp0 : 0 ≤ p) (hpb : p ≤ b)
    (hbd : isDouble b) :
    savings64 (.fin b) (.fin p) = .posInf ∨
      ∃ s : ℚ, savings64 (.fin b) (.fin p) = .fin s ∧ 0 ≤ s ∧ s ≤ 100 + 1 / 2 ^ (46 : ℕ) := by
  obtain ⟨hb1, hb2⟩ := isDouble_nearest64 b hb.le hbd
  have hd : 0 ≤ b - p := by linarith
  have hx1 : nearest64 (b - p) ≤ b := by
    have := nearest64_mono (b - p) b hd (by linarith)
    rw [hb1] at this
    exact this
  have hx0 := nearest64_nonneg (b - p) hd
  rw [savings64_unfold p b hb hp0 hpb hbd]
  split_ifs with c
  · exact Or.inl rfl
  · right
    obtain ⟨_, hy⟩ := nearest64_hundred_mul_rel (b - p) hd
    have hy0 : 0 ≤ nearest64 (100 * nearest64 (b - p)) :=
      nearest64_nonneg _ (mul_nonneg (by norm_num) hx0)
    have hq0 : 0 ≤ nearest64 (100 * nearest64 (b - p)) / b := div_nonneg hy0 hb.le
    have hq : nearest64 (100 * nearest64 (b - p)) / b ≤ 100 * (1 + 1 / 2 ^ (53 : ℕ)) := by
      rw [div_le_iff₀ hb]
      have : 100 * nearest64 (b - p) * (1 + 1 / 2 ^ (53 : ℕ)) ≤
          100 * b * (1 + 1 / 2 ^ (53 : ℕ)) :=
        mul_le_mul_of_nonneg_right (by linarith) (by norm_num)
      linarith
    have hz := nearest64_mono _ _ hq0 hq
    rw [nearest64_hundred_up] at hz
    have hfin : ¬ ((2 : ℚ) ^ (1024 : ℕ) ≤ nearest64 (nearest64 (100 * nearest64 (b - p)) / b)) := by
      intro h
      have : (100 : ℚ) + 1 / 2 ^ (46 : ℕ) < 2 ^ (1024 : ℕ) := by norm_num
      linarith
    refine ⟨nearest64 (nearest64 (100 * nearest64 (b - p)) / b), ?_, nearest64_nonneg _ hq0, hz⟩
    unfold round64
    rw [if_pos hq0, if_neg hfin]

/-- At the price 0 the finite float64 Savings is at least 100 - 2 ^ -46. -/
theorem savings64_zero_price (b : ℚ) (hb : 0 < b) (hbd : isDouble b) :
    savings64 (.fin b) (.fin 0) = .posInf ∨
      ∃ s : ℚ, savings64 (.fin b) (.fin 0) = .fin s ∧ 100 - 1 / 2 ^ (46 : ℕ) ≤ s ∧
        s ≤ 100 + 1 / 2 ^ (46 : ℕ) := by
  obtain ⟨hb1, _⟩ := isDouble_nearest64 b hb.le hbd
  rcases savings64_le 0 b hb (le_refl 0) hb.le hbd with h | ⟨s, h1, _, h3⟩
  · exact Or.inl h
  · right
    refine ⟨s, h1, ?_, h3⟩
    rw [savings64_unfold 0 b hb (le_refl 0) hb.le hbd, sub_zero, hb1] at h1
    split_ifs at h1 with c
    have hy : 100 * b * (1 - 1 / 2 ^ (53 : ℕ)) ≤ nearest64 (100 * b) := by
      have := (nearest64_hundred_mul_rel b hb.le).1
      rw [hb1] at this
      exact this
    have hq : 100 * (1 - 1 / 2 ^ (53 : ℕ)) ≤ nearest64 (100 * b) / b := by
      rw [le_div_iff₀ hb]
      linarith
    have hz := nearest64_mono _ _ (by norm_num) hq
    rw [nearest64_hundred_down] at hz
    have hq0 : 0 ≤ nearest64 (100 * b) / b := le_trans (by norm_num) hq
    unfold round64 at h1
    rw [if_pos hq0] at h1
    split_ifs at h1 with c2
    have e : nearest64 (nearest64 (100 * b) / b) = s := by injection h1
    rw [← e]
    exact hz

/-- The float64 Savings is finite when the baseline is at most 2 ^ 1016. -/
theorem savings64_finite (p b : ℚ) (hb : 0 < b) (hp0 : 0 ≤ p) (hpb : p ≤ b)
    (hbd : isDouble b)
    (hsmall : b ≤ 2 ^ (1016 : ℕ)) : ∃ s : ℚ, savings64 (.fin b) (.fin p) = .fin s := by
  obtain ⟨hb1, _⟩ := isDouble_nearest64 b hb.le hbd
  have hd : 0 ≤ b - p := by linarith
  have hx1 : nearest64 (b - p) ≤ b := by
    have := nearest64_mono (b - p) b hd (by linarith)
    rw [hb1] at this
    exact this
  have hx0 := nearest64_nonneg (b - p) hd
  have h1 : nearest64 (2 ^ (1023 : ℕ)) = 2 ^ (1023 : ℕ) := by
    rw [nearest64_eq _ (1023 - 52) 4503599627370496
      (ulpExponent_eq _ 1023 (by norm_num) (by norm_num) (by norm_num) (by norm_num))
      (by norm_num) (by norm_num)]
    norm_num
  have h2 : 100 * nearest64 (b - p) ≤ 2 ^ (1023 : ℕ) := by
    have : (100 : ℚ) * 2 ^ (1016 : ℕ) ≤ 2 ^ (1023 : ℕ) := by norm_num
    linarith
  have h3 := nearest64_mono _ _ (mul_nonneg (by norm_num) hx0) h2
  rw [h1] at h3
  rcases savings64_le p b hb hp0 hpb hbd with h | ⟨s, hs, _⟩
  · rw [savings64_unfold p b hb hp0 hpb hbd, if_neg (by
      intro c
      have : (2 : ℚ) ^ (1023 : ℕ) < 2 ^ (1024 : ℕ) := by norm_num
      linarith)] at h
    rcases savings64_le p b hb hp0 hpb hbd with h4 | ⟨s, hs, _⟩
    · rw [savings64_unfold p b hb hp0 hpb hbd, if_neg (by
        intro c
        have : (2 : ℚ) ^ (1023 : ℕ) < 2 ^ (1024 : ℕ) := by norm_num
        linarith)] at h4
      have hq0 : 0 ≤ nearest64 (100 * nearest64 (b - p)) / b :=
        div_nonneg (nearest64_nonneg _ (mul_nonneg (by norm_num) hx0)) hb.le
      obtain ⟨_, hy⟩ := nearest64_hundred_mul_rel (b - p) hd
      have hq : nearest64 (100 * nearest64 (b - p)) / b ≤ 100 * (1 + 1 / 2 ^ (53 : ℕ)) := by
        rw [div_le_iff₀ hb]
        have : 100 * nearest64 (b - p) * (1 + 1 / 2 ^ (53 : ℕ)) ≤
            100 * b * (1 + 1 / 2 ^ (53 : ℕ)) :=
          mul_le_mul_of_nonneg_right (by linarith) (by norm_num)
        linarith
      have hz := nearest64_mono _ _ hq0 hq
      rw [nearest64_hundred_up] at hz
      unfold round64 at h4
      rw [if_pos hq0, if_neg (by
        intro c
        have : (100 : ℚ) + 1 / 2 ^ (46 : ℕ) < 2 ^ (1024 : ℕ) := by norm_num
        linarith)] at h4
      cases h4
    · exact ⟨s, hs⟩
  · exact ⟨s, hs⟩

/-! ## float64 Savings: zero only at the baseline -/

theorem nearest64_two_zpow (j : ℤ) (hj : -1074 ≤ j) : nearest64 ((2 : ℚ) ^ j) = 2 ^ j := by
  have hk : ulpExponent ((2 : ℚ) ^ j) = max j (-1022) - 52 := by
    unfold ulpExponent
    have := Int.log_zpow (R := ℚ) (b := 2) (by norm_num) j
    rw [Nat.cast_ofNat] at this
    rw [this]
  have hd : 0 ≤ j - ulpExponent ((2 : ℚ) ^ j) := by rw [hk]; omega
  apply nearest64_of_int _ (2 ^ (j - ulpExponent ((2 : ℚ) ^ j)).toNat)
  push_cast
  rw [← zpow_natCast, Int.toNat_of_nonneg hd, ← zpow_add₀ (by norm_num)]
  congr 1
  omega

/-- A float64 value is a whole number of its units in the last place. -/
theorem isDouble_units (b : ℚ) (hb : 0 ≤ b) (h : isDouble b) :
    ∃ n : ℤ, b = (n : ℚ) * 2 ^ ulpExponent b := by
  obtain ⟨h1, _⟩ := isDouble_nearest64 b hb h
  exact ⟨roundNearestEven (b / 2 ^ ulpExponent b), h1.symm⟩

/-- Two different float64 values are at least half a unit in the last place
of the larger one apart, and at least 2 ^ -1074. -/
theorem isDouble_gap (p b : ℚ) (hp0 : 0 ≤ p) (hpb : p < b) (hpd : isDouble p)
    (hbd : isDouble b) : (2 : ℚ) ^ max (ulpExponent b - 1) (-1074) ≤ b - p := by
  have hb0 : 0 < b := lt_of_le_of_lt hp0 hpb
  obtain ⟨nb, hnb⟩ := isDouble_units b hb0.le hbd
  have hub := two_zpow_pos (ulpExponent b)
  have hkb := ulpExponent_ge b
  have hmax : (2 : ℚ) ^ max (ulpExponent b - 1) (-1074) ≤ 2 ^ ulpExponent b :=
    two_zpow_le _ _ (by omega)
  rcases eq_or_lt_of_le hp0 with hz | hpos
  · have hn1 : 1 ≤ nb := by
      by_contra hc
      have : (nb : ℚ) ≤ 0 := by exact_mod_cast (by omega : nb ≤ 0)
      have := mul_nonpos_of_nonpos_of_nonneg this hub.le
      linarith
    have hq : (1 : ℚ) ≤ (nb : ℚ) := by exact_mod_cast hn1
    have := mul_le_mul_of_nonneg_right hq hub.le
    rw [← hz]
    linarith
  · obtain ⟨np, hnp⟩ := isDouble_units p hp0 hpd
    have hup := two_zpow_pos (ulpExponent p)
    have hk := ulpExponent_mono p b hpos hpb.le
    rcases eq_or_lt_of_le hk with heq | hlt
    · rw [heq] at hnp
      have hn1 : np + 1 ≤ nb := by
        by_contra hc
        have : (nb : ℚ) ≤ (np : ℚ) := by exact_mod_cast (by omega : nb ≤ np)
        have := mul_le_mul_of_nonneg_right this hub.le
        linarith
      have hq : (np : ℚ) + 1 ≤ (nb : ℚ) := by exact_mod_cast hn1
      have := mul_le_mul_of_nonneg_right hq hub.le
      linarith
    · have hnorm : -1022 < ulpExponent b + 52 := by
        have := ulpExponent_ge p
        omega
      have hbl := two_zpow_ulpExponent_le b hb0 hnorm
      have hpt := lt_two_zpow_ulpExponent p
      have hm : max (ulpExponent b - 1) (-1074) = ulpExponent b - 1 := by
        have := ulpExponent_ge p
        omega
      rw [hm]
      rcases eq_or_lt_of_le (by omega : ulpExponent p ≤ ulpExponent b - 1) with e1 | e2
      · have e3 : (2 : ℚ) ^ (ulpExponent p + 53) = ((2 ^ 53 : ℤ) : ℚ) * 2 ^ ulpExponent p := by
          rw [zpow_add₀ (by norm_num), mul_comm]
          norm_num
        have hn1 : np + 1 ≤ 2 ^ 53 := by
          by_contra hc
          have : ((2 ^ 53 : ℤ) : ℚ) ≤ (np : ℚ) := by exact_mod_cast (by omega : (2 ^ 53 : ℤ) ≤ np)
          have := mul_le_mul_of_nonneg_right this hup.le
          linarith
        have hq : (np : ℚ) + 1 ≤ ((2 ^ 53 : ℤ) : ℚ) := by exact_mod_cast hn1
        have h5 := mul_le_mul_of_nonneg_right hq hup.le
        have e4 : ulpExponent b + 52 = ulpExponent p + 53 := by omega
        rw [e4] at hbl
        rw [← e1]
        linarith
      · have h6 := two_zpow_le (ulpExponent p + 53) (ulpExponent b + 51) (by omega)
        have e5 : (2 : ℚ) ^ (ulpExponent b + 52) = 2 * 2 ^ (ulpExponent b + 51) := by
          rw [show ulpExponent b + 52 = 1 + (ulpExponent b + 51) by omega,
            zpow_add₀ (by norm_num)]
          norm_num
        have h7 := two_zpow_le (ulpExponent b - 1) (ulpExponent b + 51) (by omega)
        linarith

/-- For two float64 values p < b the float64 Savings is not 0. -/
theorem savings64_ne_zero (p b : ℚ) (hp0 : 0 ≤ p) (hpb : p < b) (hpd : isDouble p)
    (hbd : isDouble b) : savings64 (.fin b) (.fin p) ≠ .fin 0 := by
  have hb0 : 0 < b := lt_of_le_of_lt hp0 hpb
  have hgap := isDouble_gap p b hp0 hpb hpd hbd
  have hj : -1074 ≤ max (ulpExponent b - 1) (-1074) := by omega
  have hkb := ulpExponent_ge b
  have hx1 := nearest64_mono _ _ (two_zpow_pos _).le hgap
  rw [nearest64_two_zpow _ hj] at hx1
  have e6 : (2 : ℚ) ^ (max (ulpExponent b - 1) (-1074) + 6) =
      64 * 2 ^ max (ulpExponent b - 1) (-1074) := by
    rw [zpow_add₀ (by norm_num), mul_comm]
    norm_num
  have h100 : (2 : ℚ) ^ (max (ulpExponent b - 1) (-1074) + 6) ≤ 100 * nearest64 (b - p) := by
    rw [e6]
    have := two_zpow_pos (max (ulpExponent b - 1) (-1074))
    linarith
  have hy := nearest64_mono _ _ (two_zpow_pos _).le h100
  rw [nearest64_two_zpow _ (by omega)] at hy
  have hbt := lt_two_zpow_ulpExponent b
  have hq : (2 : ℚ) ^ (-48 : ℤ) ≤ nearest64 (100 * nearest64 (b - p)) / b := by
    rw [le_div_iff₀ hb0]
    have h1 : (2 : ℚ) ^ (-48 : ℤ) * b ≤ 2 ^ (-48 : ℤ) * 2 ^ (ulpExponent b + 53) :=
      mul_le_mul_of_nonneg_left hbt.le (two_zpow_pos _).le
    rw [← zpow_add₀ (by norm_num)] at h1
    have h2 := two_zpow_le (-48 + (ulpExponent b + 53)) (max (ulpExponent b - 1) (-1074) + 6)
      (by omega)
    linarith
  have hz := nearest64_mono _ _ (two_zpow_pos _).le hq
  rw [nearest64_two_zpow _ (by norm_num)] at hz
  have hpos : 0 < nearest64 (nearest64 (100 * nearest64 (b - p)) / b) :=
    lt_of_lt_of_le (two_zpow_pos _) hz
  rw [savings64_unfold p b hb0 hp0 hpb.le hbd]
  split_ifs with c
  · intro h; cases h
  · have hq0 : 0 ≤ nearest64 (100 * nearest64 (b - p)) / b :=
      le_trans (two_zpow_pos _).le hq
    unfold round64
    rw [if_pos hq0]
    split_ifs with c2
    · intro h; cases h
    · intro h
      have e : nearest64 (nearest64 (100 * nearest64 (b - p)) / b) = 0 := by injection h
      linarith

/-! ## float64 rounding: sample values -/

theorem round64_sample17 :
    round64 (6124895493223875 / 36028797018963968) =
      .fin (6124895493223875 / 36028797018963968) := by
  rw [round64_eq _ (-3) 6124895493223875 (by norm_num) (by norm_num) (by norm_num) (by norm_num)
    (by norm_num) (by norm_num) (by norm_num)]
  norm_num

theorem round64_sample17_mul :
    round64 (100 * (6124895493223875 / 36028797018963968)) = .fin 17 := by
  rw [round64_eq _ 4 4785074604081152 (by norm_num) (by norm_num) (by norm_num) (by norm_num)
    (by norm_num) (by norm_num) (by norm_num)]
  norm_num

theorem round64_sample17_div :
    round64 (17 / (6124895493223875 / 36028797018963968)) =
      .fin (7036874417766399 / 70368744177664) := by
  rw [round64_eq _ 6 7036874417766399 (by norm_num) (by norm_num) (by norm_num) (by norm_num)
    (by norm_num) (by norm_num) (by norm_num)]
  norm_num

theorem savings64_sample17 :
    savings64 (.fin (6124895493223875 / 36028797018963968)) (.fin 0) =
      .fin (7036874417766399 / 70368744177664) := by
  rw [savings64_eq, sub_zero, round64_sample17, F64.hundred_mul_fin]
  rw [F64.rnd_fin]
  rw [round64_sample17_mul, F64.fin_div, if_neg (by norm_num)]
  rw [F64.rnd_fin]
  exact round64_sample17_div

theorem round64_sample763 :
    round64 (6718253375124025 / 8796093022208) = .fin (6718253375124025 / 8796093022208) := by
  rw [round64_eq _ 9 6718253375124025 (by norm_num) (by norm_num) (by norm_num) (by norm_num)
    (by norm_num) (by norm_num) (by norm_num)]
  norm_num

theorem round64_sample763_mul :
    round64 (100 * (6718253375124025 / 8796093022208)) =
      .fin (5248635449315645 / 68719476736) := by
  rw [round64_eq _ 16 5248635449315645 (by norm_num) (by norm_num) (by norm_num) (by norm_num)
    (by norm_num) (by norm_num) (by norm_num)]
  norm_num

theorem round64_sample763_div :
    round64 (5248635449315645 / 68719476736 / (6718253375124025 / 8796093022208)) =
      .fin (7036874417766401 / 70368744177664) := by
  rw [round64_eq _ 6 7036874417766401 (by norm_num) (by norm_num) (by norm_num) (by norm_num)
    (by norm_num) (by norm_num) (by norm_num)]
  norm_num

theorem savings64_sample763 :
    savings64 (.fin (6718253375124025 / 8796093022208)) (.fin 0) =
      .fin (7036874417766401 / 70368744177664) := by
  rw [savings64_eq, sub_zero, round64_sample763, F64.hundred_mul_fin]
  rw [F64.rnd_fin]
  rw [round64_sample763_mul, F64.fin_div, if_neg (by norm_num)]
  rw [F64.rnd_fin]
  exact round64_sample763_div

theorem round64_quarter_next :
    round64 (4503599627370497 / 18014398509481984) =
      .fin (4503599627370497 / 18014398509481984) := by
  rw [round64_eq _ (-2) 4503599627370497 (by norm_num) (by norm_num) (by norm_num) (by norm_num)
    (by norm_num) (by norm_num) (by norm_num)]
  norm_num

theorem round64_two_sub_quarter_next :
    round64 (2 - 4503599627370497 / 18014398509481984) = round64 (2 - 1 / 4) := by
  rw [round64_eq (2 - 4503599627370497 / 18014398509481984) 0 7881299347898368 (by norm_num)
    (by norm_num) (by norm_num) (by norm_num) (by norm_num) (by norm_num) (by norm_num),
    round64_eq (2 - 1 / 4) 0 7881299347898368 (by norm_num)
    (by norm_num) (by norm_num) (by norm_num) (by norm_num) (by norm_num) (by norm_num)]

theorem savings64_quarter_next :
    savings64 (.fin 2) (.fin (4503599627370497 / 18014398509481984)) =
      savings64 (.fin 2) (.fin (1 / 4)) := by
  rw [savings64_eq, savings64_eq, round64_two_sub_quarter_next]

theorem round64_two_pow_1023 : round64 (2 ^ (1023 : ℕ)) = .fin (2 ^ (1023 : ℕ)) := by
  rw [round64_eq _ 1023 4503599627370496 (by norm_num) (by norm_num) (by norm_num) (by norm_num)
    (by norm_num) (by norm_num) (by norm_num)]
  norm_num

theorem round64_hundred_two_pow_1023 : round64 (100 * 2 ^ (1023 : ℕ)) = .posInf := by
  have h1 : nearest64 (2 ^ (1024 : ℕ)) = 2 ^ (1024 : ℕ) := by
    rw [nearest64_eq _ (1024 - 52) 4503599627370496
      (ulpExponent_eq _ 1024 (by norm_num) (by norm_num) (by norm_num) (by norm_num))
      (by norm_num) (by norm_num)]
    norm_num
  have h2 := nearest64_mono (2 ^ (1024 : ℕ)) (100 * 2 ^ (1023 : ℕ)) (by norm_num) (by norm_num)
  rw [h1] at h2
  unfold round64
  rw [if_pos (by norm_num), if_pos h2]

theorem savings64_two_pow_1023 : savings64 (.fin (2 ^ (1023 : ℕ))) (.fin 0) = .posInf := by
  rw [savings64_eq, sub_zero, round64_two_pow_1023, F64.hundred_mul_fin]
  rw [F64.rnd_fin]
  rw [round64_hundred_two_pow_1023, F64.posInf_div_fin _ (by norm_num)]
  rfl

theorem isDouble_double017 : isDouble double017 := by
  unfold isDouble double017
  exact round64_sample17

theorem isDouble_double763 : isDouble double763 := by
  unfold isDouble double763
  exact round64_sample763

theorem isDouble_doubleQuarterNext : isDouble doubleQuarterNext := by
  unfold isDouble doubleQuarterNext
  exact round64_quarter_next

theorem isDouble_quarter : isDouble (1 / 4) := by
  unfold isDouble
  rw [round64_eq _ (-2) 4503599627370496 (by norm_num) (by norm_num) (by norm_num) (by norm_num)
    (by norm_num) (by norm_num) (by norm_num)]
  norm_num

theorem isDouble_two : isDouble 2 := by
  unfold isDouble
  rw [round64_eq _ 1 4503599627370496 (by norm_num) (by norm_num) (by norm_num) (by norm_num)
    (by norm_num) (by norm_num) (by norm_num)]
  norm_num

theorem isDouble_zero : isDouble 0 := round64_zero

/-! ## Price merger in float64: the loop -/

theorem PriceRides.loop64_cons (noWalkPrice price : F64) (rest : List F64) (i : Nat)
    (rides : List (Ride Loc)) :
    PriceRides.loop64 noWalkPrice i (price :: rest) rides =
      match rides[i]? with
      | none => .panicked ⟨i, rides.length⟩ rides
      | some r =>
        PriceRides.loop64 noWalkPrice (i + 1) rest (rides.set i (reprice64 noWalkPrice r price)) :=
  rfl

/-- The float64 loop returns only when the slice has a ride for every
price. -/
theorem PriceRides.loop64_returned_length (noWalkPrice : F64) :
    ∀ (prices : List F64) (i : Nat) (rides out : List (Ride Loc)),
      PriceRides.loop64 noWalkPrice i prices rides = .returned out →
      i + prices.length ≤ rides.length ∨ prices = [] := by
  intro prices
  induction prices with
  | nil => intro i rides out _; exact Or.inr rfl
  | cons price rest ih =>
    intro i rides out h
    rw [PriceRides.loop64_cons] at h
    left
    rcases Nat.lt_or_ge i rides.length with hi | hi
    · rw [List.getElem?_eq_getElem hi] at h
      simp only [] at h
      rcases ih (i + 1) _ out h with h1 | h1
      · rw [List.length_set] at h1
        simp only [List.length_cons]
        omega
      · rw [h1]
        simp only [List.length_cons, List.length_nil]
        omega
    · rw [List.getElem?_eq_none hi] at h
      cases h

/-- The ride at the index of a price after the float64 loop: it carries the
price and the float64 Savings against the baseline. -/
theorem PriceRides.loop64_rides (noWalkPrice : F64) :
    ∀ (prices : List F64) (i : Nat) (rides : List (Ride Loc)),
      (∀ j, j < i → (PriceRides.loop64 noWalkPrice i prices rides).rides[j]? = rides[j]?) ∧
      (∀ k r p, rides[i + k]? = some r → prices[k]? = some p →
        (PriceRides.loop64 noWalkPrice i prices rides).rides[i + k]? =
          some (reprice64 noWalkPrice r p)) := by
  intro prices
  induction prices with
  | nil => intro i rides; simp [PriceRides.loop64, MergeOutcome.rides]
  | cons price rest ih =>
    intro i rides
    rw [PriceRides.loop64_cons]
    cases hri : rides[i]? with
    | none =>
      refine ⟨fun _ _ => rfl, ?_⟩
      intro k r p hr _
      have hlen : rides.length ≤ i := by
        rcases Nat.lt_or_ge i rides.length with h | h
        · rw [List.getElem?_eq_getElem h] at hri; cases hri
        · exact h
      rw [List.getElem?_eq_none (by omega)] at hr
      cases hr
    | some r0 =>
      simp only []
      obtain ⟨h2, h3⟩ := ih (i + 1) (rides.set i (reprice64 noWalkPrice r0 price))
      refine ⟨?_, ?_⟩
      · intro j hj
        rw [h2 j (by omega), List.getElem?_set_ne (by omega)]
      · intro k r p hr hp
        cases k with
        | zero =>
          have hi : i < rides.length := by
            rcases Nat.lt_or_ge i rides.length with h | h
            · exact h
            · rw [List.getElem?_eq_none h] at hri; cases hri
          simp only [Nat.add_zero] at hr ⊢
          rw [hri] at hr
          simp only [List.getElem?_cons_zero] at hp
          cases hr; cases hp
          rw [h2 i (Nat.lt_succ_self i), List.getElem?_set_self hi]
        | succ k =>
          have e : i + (k + 1) = i + 1 + k := by omega
          rw [e] at hr ⊢
          simp only [List.getElem?_cons_succ] at hp
          apply h3 k r p _ hp
          rw [List.getElem?_set_ne (by omega)]
          exact hr

theorem PriceRides.merge64_eq_loop64 (rides : List (Ride Loc)) (prices : List F64)
    (baseline : F64) (hlast : prices.getLast? = some baseline) :
    PriceRides.merge64 rides prices = PriceRides.loop64 baseline 0 prices rides := by
  have hne : prices ≠ [] := by
    intro h; rw [h] at hlast; cases hlast
  have hpos : 0 < prices.length := List.length_pos.mpr hne
  have hidx : prices[prices.length - 1]? = some baseline := by
    rw [← hlast, List.getLast?_eq_getElem?]
  unfold PriceRides.merge64
  have h1 : ¬ ((prices.length : Int) - 1 < 0) := by omega
  have h2 : ((prices.length : Int) - 1).toNat = prices.length - 1 := by omega
  simp only [h1, if_false, h2, hidx]

/-- When the float64 merging step returns, the ride at the index of a price
carries that price and the float64 Savings against the last price. -/
theorem PriceRides.merge64_savings (rides : List (Ride Loc)) (prices : List F64)
    (out : List (Ride Loc)) (baseline price : F64) (i : Nat)
    (hlast : prices.getLast? = some baseline) (hi : prices[i]? = some price)
    (hret : PriceRides.merge64 rides prices = .returned out) :
    ∃ r, out[i]? = some r ∧ r.Price = price ∧ r.Savings = savings64 baseline price := by
  rw [PriceRides.merge64_eq_loop64 rides prices baseline hlast] at hret
  have hlen : prices.length ≤ rides.length := by
    rcases PriceRides.loop64_returned_length baseline prices 0 rides out hret with h | h
    · omega
    · rw [h] at hi
      cases hi
  have hip : i < prices.length := by
    rcases Nat.lt_or_ge i prices.length with h | h
    · exact h
    · rw [List.getElem?_eq_none h] at hi; cases hi
  have hir : i < rides.length := by omega
  have hm := (PriceRides.loop64_rides baseline prices 0 rides).2 i rides[i] price
    (by rw [Nat.zero_add]; exact List.getElem?_eq_getElem hir) hi
  rw [hret, Nat.zero_add] at hm
  exact ⟨_, hm, rfl, rfl⟩

/-! ## Price merger in float64: the range of the Savings -/

/-- The float64 merging step on two rides and two prices. -/
theorem PriceRides.merge64_two (r1 r2 : Ride Loc) (p b : F64) :
    PriceRides.merge64 [r1, r2] [p, b] = .returned [reprice64 b r1 p, reprice64 b r2 b] :=
  rfl

/-- C17 fails as stated on float64, where each operation of
100 * (b - p) / b is rounded. With the baseline 0.17 and the price 0 the
Savings is 100 - 2 ^ -46, not 100; with the baseline 763.7769812304242 and the
price 0 it is 100 + 2 ^ -46, above 100; with the baseline 2 the prices 0.25
and the next float64 value above it get the same Savings; with the baseline
2 ^ 1023 and the price 0 the product overflows and the Savings is +Inf. -/
theorem PriceRides.merge64_savings_out_of_range :
    (isDouble double017 ∧ isDouble 0 ∧
      PriceRides.merge64 [sampleRide, sampleRide] [.fin 0, .fin double017] =
        .returned [reprice64 (.fin double017) sampleRide (.fin 0),
          reprice64 (.fin double017) sampleRide (.fin double017)] ∧
      (reprice64 (.fin double017) sampleRide (.fin 0)).Savings =
        .fin (7036874417766399 / 70368744177664) ∧
      (7036874417766399 / 70368744177664 : ℚ) < 100) ∧
    (isDouble double763 ∧
      PriceRides.merge64 [sampleRide, sampleRide] [.fin 0, .fin double763] =
        .returned [reprice64 (.fin double763) sampleRide (.fin 0),
          reprice64 (.fin double763) sampleRide (.fin double763)] ∧
      (reprice64 (.fin double763) sampleRide (.fin 0)).Savings =
        .fin (7036874417766401 / 70368744177664) ∧
      (100 : ℚ) < 7036874417766401 / 70368744177664) ∧
    (isDouble 2 ∧ isDouble (1 / 4) ∧ isDouble doubleQuarterNext ∧
      (1 / 4 : ℚ) < doubleQuarterNext ∧ doubleQuarterNext ≤ 2 ∧
      (reprice64 (.fin 2) sampleRide (.fin doubleQuarterNext)).Savings =
        (reprice64 (.fin 2) sampleRide (.fin (1 / 4))).Savings) ∧
    (isDouble (2 ^ (1023 : ℕ)) ∧
      (reprice64 (.fin (2 ^ (1023 : ℕ))) sampleRide (.fin 0)).Savings = .posInf) := by
  refine ⟨⟨isDouble_double017, isDouble_zero, PriceRides.merge64_two _ _ _ _, ?_, by norm_num⟩,
    ⟨isDouble_double763, PriceRides.merge64_two _ _ _ _, ?_, by norm_num⟩,
    ⟨isDouble_two, isDouble_quarter, isDouble_doubleQuarterNext, ?_, ?_, ?_⟩,
    ⟨round64_two_pow_1023, savings64_two_pow_1023⟩⟩
  · show savings64 (.fin double017) (.fin 0) = _
    unfold double017
    exact savings64_sample17
  · show savings64 (.fin double763) (.fin 0) = _
    unfold double763
    exact savings64_sample763
  · unfold doubleQuarterNext
    norm_num
  · unfold doubleQuarterNext
    norm_num
  · show savings64 (.fin 2) (.fin doubleQuarterNext) = savings64 (.fin 2) (.fin (1 / 4))
    unfold doubleQuarterNext
    exact savings64_quarter_next

/-- C17, as float64 has it: for float64 values b > 0 and 0 <= p <= b, when
the merging step returns, the Savings of the ride priced p against the
baseline b is the rounded value of 100 * (b - p) / b; it is never NaN and
never negative: it is +Inf or a finite value in [0, 100 + 2 ^ -46], and it is
finite when b <= 2 ^ 1016; it is 0 exactly when p = b; at p = 0 it is, when
finite, at least 100 - 2 ^ -46; and it does not increase with the price. -/
theorem PriceRides.merge64_savings_range (rides : List (Ride Loc)) (prices : List F64)
    (out : List (Ride Loc)) (i : Nat) (p b : ℚ) (hb : 0 < b) (hp0 : 0 ≤ p) (hpb : p ≤ b)
    (hpd : isDouble p) (hbd : isDouble b) (hlast : prices.getLast? = some (.fin b))
    (hi : prices[i]? = some (.fin p))
    (hret : PriceRides.merge64 rides prices = .returned out) :
    (∃ r, out[i]? = some r ∧ r.Savings = savings64 (.fin b) (.fin p)) ∧
    (savings64 (.fin b) (.fin p) = .posInf ∨
      ∃ s : ℚ, savings64 (.fin b) (.fin p) = .fin s ∧ 0 ≤ s ∧ s ≤ 100 + 1 / 2 ^ (46 : ℕ)) ∧
    (b ≤ 2 ^ (1016 : ℕ) → ∃ s : ℚ, savings64 (.fin b) (.fin p) = .fin s) ∧
    (savings64 (.fin b) (.fin p) = .fin 0 ↔ p = b) ∧
    (p = 0 → savings64 (.fin b) (.fin p) = .posInf ∨
      ∃ s : ℚ, savings64 (.fin b) (.fin p) = .fin s ∧ 100 - 1 / 2 ^ (46 : ℕ) ≤ s) ∧
    (∀ p2 : ℚ, p ≤ p2 → p2 ≤ b →
      F64.le (savings64 (.fin b) (.fin p2)) (savings64 (.fin b) (.fin p))) := by
  obtain ⟨r, h1, _, h3⟩ := PriceRides.merge64_savings rides prices out (.fin b) (.fin p) i
    hlast hi hret
  obtain ⟨_, k2, k3⟩ := savings64_props p b hb hpb
  refine ⟨⟨r, h1, h3⟩, savings64_le p b hb hp0 hpb hbd, savings64_finite p b hb hp0 hpb hbd,
    ⟨?_, k2⟩, ?_, k3⟩
  · intro h0
    by_contra hne
    exact savings64_ne_zero p b hp0 (lt_of_le_of_ne hpb hne) hpd hbd h0
  · intro hz
    rw [hz]
    rcases savings64_zero_price b hb hbd with h | ⟨s, g1, g2, _⟩
    · exact Or.inl h
    · exact Or.inr ⟨s, g1, g2⟩

theorem PriceRides.merge64_savings_range_witness :
    (∃ r, [reprice64 (.fin 2) sampleRide (.fin (1 / 4)), reprice64 (.fin 2) sampleRide (.fin 2)][0]? =
      some r ∧ r.Savings = savings64 (.fin 2) (.fin (1 / 4))) ∧
    (savings64 (.fin 2) (.fin (1 / 4)) = .posInf ∨
      ∃ s : ℚ, savings64 (.fin 2) (.fin (1 / 4)) = .fin s ∧ 0 ≤ s ∧
        s ≤ 100 + 1 / 2 ^ (46 : ℕ)) ∧
    (∃ s : ℚ, savings64 (.fin 2) (.fin (1 / 4)) = .fin s) ∧
    F64.le (savings64 (.fin 2) (.fin doubleQuarterNext)) (savings64 (.fin 2) (.fin (1 / 4))) := by
  have h := PriceRides.merge64_savings_range [sampleRide, sampleRide] [.fin (1 / 4), .fin 2]
    [reprice64 (.fin 2) sampleRide (.fin (1 / 4)), reprice64 (.fin 2) sampleRide (.fin 2)] 0
    (1 / 4) 2 (by norm_num) (by norm_num) (by norm_num) isDouble_quarter isDouble_two rfl rfl
    (PriceRides.merge64_two _ _ _ _)
  exact ⟨h.1, h.2.1, h.2.2.1 (by norm_num),
    h.2.2.2.2.2 doubleQuarterNext (by unfold doubleQuarterNext; norm_num)
      (by unfold doubleQuarterNext; norm_num)⟩

end Pricing
